import Mathlib

/-!
Verification of the C-OOP-Container repository (vector.h / hashmap.h).

This file gives a shallow embedding, in Lean 4, of the two container
engines of the repository:

* the dynamic array engine (`VECTOR_DEFINE` / `VECTOR_DEFINE_CUSTOM` in
  vector.h): a contiguous buffer with `size` and `capacity`, modelled here
  by the list of live elements (`data`, whose length is the C `size`
  field) together with the `capacity` field;
* the hash table engine (`HASHMAP_DEFINE` / `HASHMAP_DEFINE_CUSTOM` in
  hashmap.h): a bucket array with separate chaining, modelled by a list of
  chains, an explicit `size` field and a `capacity` field, with the hash
  and key-equality functions passed as parameters exactly as the dispatch
  table passes them in C.

C `int` values (indices, sizes, capacities, hash codes) are modelled by
`Int`.  The masking `hash & (capacity - 1)` is modelled by `Int.land`,
which implements the two's-complement bitwise AND used by the C code.
The load-factor test `size >= capacity * 0.75f` is modelled by the exact
integer inequality `3 * capacity ≤ 4 * size`; for a power-of-two capacity
the float product `capacity * 0.75f` is exact (it has two significant
bits), so the two tests agree on the reachable states considered here.
-/

/-! ### The dynamic array engine (vector.h) -/

/-- A vector instance: `data` is the live prefix of the heap buffer (its
length is the value of the C `size` field), `capacity` the allocated slot
count. -/
structure CVec (α : Type) where
  data : List α
  capacity : Int
  deriving Repr, DecidableEq

/-- The C `size` field (always the number of live elements). -/
def Vector_size {α : Type} (v : CVec α) : Int :=
  (v.data.length : Int)

/-- Result of a C expression of type `const T*`: the null pointer, a
pointer to a live element (carrying the element it points to), or a
pointer outside the live region of the buffer (dereferencing it is
undefined behavior); `oob` records the offset. -/
inductive CPtr (α : Type) where
  | null : CPtr α
  | valid : α → CPtr α
  | oob : Int → CPtr α
  deriving Repr, DecidableEq

/-- The C expression `&self->data[index]`: a pointer into the buffer at a
given offset.  It is a pointer to a live element exactly when
`0 ≤ index < size`. -/
def bufPtr {α : Type} (v : CVec α) (index : Int) : CPtr α :=
  if h : 0 ≤ index ∧ index < Vector_size v then
    .valid (v.data.get ⟨index.toNat, by
      have h1 := h.1; have h2 := h.2
      simp only [Vector_size] at h2
      omega⟩)
  else .oob index

/-- Model of `Vector_##T##_get` (dome.c): `if (index < self->size) return
&self->data[index]; return NULL;` — note that the code does not check
`index < 0`. -/
def Vector_get {α : Type} (v : CVec α) (index : Int) : CPtr α :=
  if index < Vector_size v then bufPtr v index else .null

/-- Model of `Vector_##T##_set`: `if (index < 0 || index >= self->size) return
false; self->data[index] = value; return true;`. -/
def Vector_set {α : Type} (v : CVec α) (index : Int) (value : α) :
    Bool × CVec α :=
  if index < 0 || Vector_size v ≤ index then (false, v)
  else (true, { v with data := v.data.set index.toNat value })

/-- Model of `Vector_##T##_push`: doubles `capacity` when `size == capacity`
(reallocating the buffer), then appends `value` and increments `size`. -/
def Vector_push {α : Type} (v : CVec α) (value : α) : CVec α :=
  let cap := if Vector_size v = v.capacity then 2 * v.capacity else v.capacity
  ⟨v.data ++ [value], cap⟩

/-- Model of `Vector_##T##_insert`: rejects `index < 0 || index > size`; otherwise
grows like push if full, shifts `data[index..size-1]` up by one and writes
`value` at `index`. -/
def Vector_insert {α : Type} (v : CVec α) (index : Int) (value : α) :
    Bool × CVec α :=
  if index < 0 || Vector_size v < index then (false, v)
  else
    let cap := if Vector_size v = v.capacity then 2 * v.capacity else v.capacity
    (true, ⟨v.data.take index.toNat ++ value :: v.data.drop index.toNat, cap⟩)

/-- Model of `Vector_##T##_remove`: rejects `index < 0 || index >= size`; otherwise
shifts `data[index+1..size-1]` down by one and decrements `size`. -/
def Vector_remove {α : Type} (v : CVec α) (index : Int) : Bool × CVec α :=
  if index < 0 || Vector_size v ≤ index then (false, v)
  else (true, ⟨v.data.take index.toNat ++ v.data.drop (index.toNat + 1),
    v.capacity⟩)

/-- Model of `Vector_##T##_new`: allocates a buffer of `capacity` slots, `size` 0;
no validity check is performed on `capacity`. -/
def Vector_new (α : Type) (capacity : Int) : CVec α :=
  ⟨[], capacity⟩

/-- Model of `Vector_##T##_get_iterator`: the iterator starts at index `-1`
(before the first element).  The iterator state is its `index` field. -/
def Vector_get_iterator {α : Type} (_ : CVec α) : Int := -1

/-- Model of `Vector_##T##_iterator_next`: advances while `index < size - 1`;
returns whether the advance happened together with the new index. -/
def Vector_iterator_next {α : Type} (v : CVec α) (index : Int) :
    Bool × Int :=
  if index < Vector_size v - 1 then (true, index + 1) else (false, index)

/-- Model of `Vector_##T##_iterator_current`: `if (index >= 0 && index < size)
return &data[index]; return NULL;`. -/
def Vector_iterator_current {α : Type} (v : CVec α) (index : Int) :
    CPtr α :=
  if 0 ≤ index && index < Vector_size v then bufPtr v index else .null

/-- Runs a freshly advanced traversal: repeatedly calls
`Vector_iterator_next` from `index`, collecting the index of every
successful advance, until the advance fails (or the fuel runs out; any
fuel larger than `size` is enough). -/
def viterRun {α : Type} (v : CVec α) : Nat → Int → List Int
  | 0, _ => []
  | fuel + 1, index =>
    let s := Vector_iterator_next v index
    if s.1 then s.2 :: viterRun v fuel s.2 else []

/-- Iterated push, for the concrete growth scenario. -/
def pushN {α : Type} (x : α) (v : CVec α) : Nat → CVec α
  | 0 => v
  | n + 1 => Vector_push (pushN x v n) x

/-! ### Default behaviours for text pointers (`cstr = const char*`)

A `const char*` value is modelled as an address (`Nat`) into a string
memory `mem : Nat → List Char` assigning to every address the
null-terminated byte sequence stored there (the list holds the bytes
before the terminator). -/

/-- Model of `strcmp(s1, s2) == 0` on null-terminated strings: byte sequences
compared position by position. -/
def strcmpEq : List Char → List Char → Bool
  | [], [] => true
  | a :: as, b :: bs => a == b && strcmpEq as bs
  | _, _ => false

/-- The equality generated by `VECTOR_DEFINE(cstr)` (dome.c / vector.h):
`static bool Vector_cstr_equals(cstr e1, cstr e2) { return e1 == e2; }` —
on pointers, this compares the addresses. -/
def Vector_cstr_equals (e1 e2 : Nat) : Bool :=
  e1 == e2

/-- The equality generated by `HASHMAP_DEFINE(cstr, V)` (hashmap.h):
`_Generic` selects `strcmp(u1.strval, u2.strval) == 0` for `const
char*`. -/
def Hashmap_cstr_equals (mem : Nat → List Char) (k1 k2 : Nat) : Bool :=
  strcmpEq (mem k1) (mem k2)

/-- Model of `Vector_##T##_index_of`: linear scan with the dispatch table's
`equals`; first match wins, `-1` when absent. -/
def Vector_index_of {α : Type} (equals : α → α → Bool) (v : CVec α)
    (value : α) : Int :=
  let rec go : List α → Int → Int
    | [], _ => -1
    | e :: rest, i => if equals e value then i else go rest (i + 1)
  go v.data 0

/-- Model of `Vector_##T##_contains`: `index_of != -1`. -/
def Vector_contains {α : Type} (equals : α → α → Bool) (v : CVec α)
    (value : α) : Bool :=
  Vector_index_of equals v value != -1

/-- Memory used in the claim C1 counterexample: every address holds the
byte sequence "a", so addresses 0 and 1 are distinct pointers to equal
contents. -/
def cexMem : Nat → List Char := fun _ => ['a']

/-! ### The hash table engine (hashmap.h)

The engine is generic over the key and value types; the dispatch table's
`hash` and `equals` functions are passed as explicit parameters, exactly
as `self->fns->hash` / `self->fns->equals` are consulted in C. -/

/-- A chain entry: key, value and the cached hash code (`int hash`). -/
structure HEntry (κ ν : Type) where
  key : κ
  value : ν
  hash : Int
  deriving Repr, DecidableEq

/-- A hash map instance: the bucket array (`entries`, one chain per
bucket, in chain order), the entry count `size` and the bucket-array
length `capacity`. -/
structure HMap (κ ν : Type) where
  buckets : List (List (HEntry κ ν))
  size : Int
  capacity : Int
  deriving Repr, DecidableEq

/-- The bucket index `hash & (capacity - 1)` (two's-complement bitwise
AND on C ints, modelled by `Int.land`), converted to a list index. -/
def hidx (h : Int) (capacity : Int) : Nat :=
  (Int.land h (capacity - 1)).toNat

/-- Model of `Hashmap_##K##_##V##_new`: a bucket array of `capacity` empty chains,
`size` 0.  (No validity check happens here; the power-of-two check lives
in the `hashmap_new_with_capacity` macro.) -/
def Hashmap_new (κ ν : Type) (capacity : Int) : HMap κ ν :=
  ⟨List.replicate capacity.toNat [], 0, capacity⟩

/-- Model of the `hashmap_new_with_capacity` macro: if
`!(capacity > 0 && (capacity & (capacity - 1)) == 0)` it prints a
diagnostic on stderr and calls `_Exit(-1)`; the fatal path is modelled by
`none`, the successful path returns the constructed map. -/
def hashmap_new_with_capacity (κ ν : Type) (capacity : Int) :
    Option (HMap κ ν) :=
  if 0 < capacity && Int.land capacity (capacity - 1) == 0 then
    some (Hashmap_new κ ν capacity)
  else none

/-- One head-insertion step of the resize loop:
`entry->next = self->entries[index]; self->entries[index] = entry;`. -/
def bucketInsert {κ ν : Type} (capacity : Int)
    (bs : List (List (HEntry κ ν))) (e : HEntry κ ν) :
    List (List (HEntry κ ν)) :=
  bs.set (hidx e.hash capacity) (e :: bs.getD (hidx e.hash capacity) [])

/-- Model of `Hashmap_##K##_##V##_resize`: doubles the capacity, allocates a fresh
all-NULL bucket array, and relinks every entry — walking the old buckets
in index order and each chain front to back, head-inserting into the new
bucket `entry->hash & (new_capacity - 1)`. -/
def Hashmap_resize {κ ν : Type} (m : HMap κ ν) : HMap κ ν :=
  let cap2 := 2 * m.capacity
  ⟨m.buckets.flatten.foldl (bucketInsert cap2)
      (List.replicate cap2.toNat []),
    m.size, cap2⟩

/-- The chain walk of `put`: update the value in place at the first entry
with `entry->hash == hash && equals(entry->key, key)`, otherwise append a
fresh entry at the tail.  The Boolean records whether a new entry was
appended (in C: whether `size` is incremented). -/
def chainPut {κ ν : Type} (equals : κ → κ → Bool) (h : Int) (k : κ) (v : ν) :
    List (HEntry κ ν) → List (HEntry κ ν) × Bool
  | [] => ([⟨k, v, h⟩], true)
  | e :: rest =>
    if e.hash == h && equals e.key k then (⟨e.key, v, e.hash⟩ :: rest, false)
    else
      let p := chainPut equals h k v rest
      (e :: p.1, p.2)

/-- The second phase of `Hashmap_##K##_##V##_put` (after the growth
check): hash, bucket-locate, and the chain walk updating in place or
appending at the tail and incrementing `size`. -/
def Hashmap_put_entry {κ ν : Type} (hash : κ → Int) (equals : κ → κ → Bool)
    (m1 : HMap κ ν) (k : κ) (v : ν) : HMap κ ν :=
  let h := hash k
  let i := hidx h m1.capacity
  let p := chainPut equals h k v (m1.buckets.getD i [])
  ⟨m1.buckets.set i p.1, m1.size + (if p.2 then 1 else 0), m1.capacity⟩

/-- Model of `Hashmap_##K##_##V##_put`: first the load-factor check
`size >= capacity * 0.75f` (the exact integer form `3*capacity ≤ 4*size`)
triggering a resize, then the insert phase. -/
def Hashmap_put {κ ν : Type} (hash : κ → Int) (equals : κ → κ → Bool)
    (m : HMap κ ν) (k : κ) (v : ν) : HMap κ ν :=
  Hashmap_put_entry hash equals
    (if 3 * m.capacity ≤ 4 * m.size then Hashmap_resize m else m) k v

/-- The chain walk of `get`: first entry with `equals(entry->key, key)`
(no hash pre-filter in `get`); returns a pointer to its value or NULL. -/
def chainGet {κ ν : Type} (equals : κ → κ → Bool) (k : κ) :
    List (HEntry κ ν) → Option ν
  | [] => none
  | e :: rest => if equals e.key k then some e.value else chainGet equals k rest

/-- Model of `Hashmap_##K##_##V##_get`. -/
def Hashmap_get {κ ν : Type} (hash : κ → Int) (equals : κ → κ → Bool)
    (m : HMap κ ν) (k : κ) : Option ν :=
  chainGet equals k (m.buckets.getD (hidx (hash k) m.capacity) [])

/-- Model of `Hashmap_##K##_##V##_contains`: `get(...) != NULL`. -/
def Hashmap_contains {κ ν : Type} (hash : κ → Int) (equals : κ → κ → Bool)
    (m : HMap κ ν) (k : κ) : Bool :=
  (Hashmap_get hash equals m k).isSome

/-- The chain walk of `remove`: unlink the first entry with
`entry->hash == hash && equals(entry->key, key)`; `none` when no entry
matches. -/
def chainRemove {κ ν : Type} (equals : κ → κ → Bool) (h : Int) (k : κ) :
    List (HEntry κ ν) → Option (List (HEntry κ ν))
  | [] => none
  | e :: rest =>
    if e.hash == h && equals e.key k then some rest
    else (chainRemove equals h k rest).map (e :: ·)

/-- Model of `Hashmap_##K##_##V##_remove`: returns whether an entry was removed,
together with the updated map (`size` decremented on success). -/
def Hashmap_remove {κ ν : Type} (hash : κ → Int) (equals : κ → κ → Bool)
    (m : HMap κ ν) (k : κ) : Bool × HMap κ ν :=
  let h := hash k
  let i := hidx h m.capacity
  match chainRemove equals h k (m.buckets.getD i []) with
  | some chain => (true, ⟨m.buckets.set i chain, m.size - 1, m.capacity⟩)
  | none => (false, m)

/-- Model of `Hashmap_##K##_##V##_clear`: frees every chain, sets every bucket to
NULL and `size` to 0; the bucket array (capacity) is retained. -/
def Hashmap_clear {κ ν : Type} (m : HMap κ ν) : HMap κ ν :=
  ⟨m.buckets.map (fun _ => []), 0, m.capacity⟩

/-- One mutating map operation, for quantifying over reachable maps. -/
inductive HOp (κ ν : Type) where
  | put (k : κ) (v : ν)
  | remove (k : κ)
  | clear
  deriving Repr

/-- Applies one operation through the dispatch table. -/
def applyHOp {κ ν : Type} (hash : κ → Int) (equals : κ → κ → Bool)
    (m : HMap κ ν) : HOp κ ν → HMap κ ν
  | .put k v => Hashmap_put hash equals m k v
  | .remove k => (Hashmap_remove hash equals m k).2
  | .clear => Hashmap_clear m

/-- Applies a sequence of operations in order. -/
def runHOps {κ ν : Type} (hash : κ → Int) (equals : κ → κ → Bool)
    (m : HMap κ ν) (ops : List (HOp κ ν)) : HMap κ ν :=
  ops.foldl (applyHOp hash equals) m

/-- Applies a sequence of puts in order. -/
def runPuts {κ ν : Type} (hash : κ → Int) (equals : κ → κ → Bool)
    (m : HMap κ ν) (ops : List (κ × ν)) : HMap κ ν :=
  ops.foldl (fun m p => Hashmap_put hash equals m p.1 p.2) m

/-- The most recent value put for a key `equals`-matching `q` in an
operation sequence (`none` when no put matches). -/
def lookupLast {κ ν : Type} (equals : κ → κ → Bool) (ops : List (κ × ν))
    (q : κ) : Option ν :=
  ops.foldl (fun acc p => if equals p.1 q then some p.2 else acc) none

/-! ### Well-formedness invariants of reachable maps -/

/-- Capacity well-formedness: the capacity is a power of two and the
bucket array really has `capacity` slots. -/
def capWF {κ ν : Type} (m : HMap κ ν) : Prop :=
  (∃ c : ℕ, m.capacity = (2:ℤ)^c) ∧ m.buckets.length = m.capacity.toNat

/-- Entry well-formedness: every entry's cached hash is the hash of its
key, and every entry sits in the bucket selected by its cached hash. -/
def entriesWF {κ ν : Type} (hash : κ → Int) (m : HMap κ ν) : Prop :=
  ∀ (i : ℕ) (e : HEntry κ ν), e ∈ m.buckets.getD i [] →
    e.hash = hash e.key ∧ hidx e.hash m.capacity = i

/-- No chain holds two entries with `equals`-equal keys. -/
def chainsNodup {κ ν : Type} (equals : κ → κ → Bool) (m : HMap κ ν) : Prop :=
  ∀ i : ℕ, (m.buckets.getD i []).Pairwise
    (fun e1 e2 => equals e1.key e2.key = false)

/-- The `size` field counts the entries. -/
def sizeWF {κ ν : Type} (m : HMap κ ν) : Prop :=
  m.size = (m.buckets.flatten.length : Int)

/-- The hash-function/equality contract stated by the spec: `equals` is
an equivalence and `hash` is constant on its classes. -/
structure EqOk {κ : Type} (hash : κ → Int) (equals : κ → κ → Bool) : Prop where
  refl : ∀ a, equals a a = true
  symm : ∀ a b, equals a b = equals b a
  trans : ∀ a b c, equals a b = true → equals b c = true →
    equals a c = true
  hashEq : ∀ a b, equals a b = true → hash a = hash b

/-- The full representation invariant of reachable maps. -/
def HInv {κ ν : Type} (hash : κ → Int) (equals : κ → κ → Bool)
    (m : HMap κ ν) : Prop :=
  capWF m ∧ entriesWF hash m ∧ chainsNodup equals m ∧ sizeWF m

/-- Load-factor soundness state: power-of-two capacity at least 4, and
`size` within three quarters of it. -/
def loadWF {κ ν : Type} (m : HMap κ ν) : Prop :=
  (∃ k : ℕ, 2 ≤ k ∧ m.capacity = (2:ℤ)^k) ∧ 4 * m.size ≤ 3 * m.capacity

/-- Model of `Hashmap_##K##_##V##_get_iterator`: bucket index 0, entry NULL.  The
iterator state is the pair (index, rest) where `rest` is the suffix of
the current bucket's chain starting at the current entry (`[]` models
`entry == NULL`). -/
def Hashmap_get_iterator {κ ν : Type} (_ : HMap κ ν) :
    Int × List (HEntry κ ν) :=
  (0, [])

/-- The scan loop of `Hashmap_##K##_##V##_iterator_next`:
`while (index < capacity) { entry = entries[index]; index++;
if (entry != NULL) return true; } return false`.  The fuel is the number
of remaining loop iterations, `(capacity - index).toNat`. -/
def hiterScan {κ ν : Type} (m : HMap κ ν) :
    Nat → Int → List (HEntry κ ν) → Bool × Int × List (HEntry κ ν)
  | 0, i, rest => (false, i, rest)
  | fuel + 1, i, rest =>
    if i < m.capacity then
      match m.buckets.getD i.toNat [] with
      | [] => hiterScan m fuel (i + 1) []
      | chain => (true, i + 1, chain)
    else (false, i, rest)

/-- Model of `Hashmap_##K##_##V##_iterator_next`: follow the chain when the
current entry has a successor, otherwise scan forward for the next
non-empty bucket. -/
def Hashmap_iterator_next {κ ν : Type} (m : HMap κ ν)
    (st : Int × List (HEntry κ ν)) : Bool × Int × List (HEntry κ ν) :=
  match st.2 with
  | _ :: e2 :: rest => (true, st.1, e2 :: rest)
  | r => hiterScan m (m.capacity - st.1).toNat st.1 r

/-- Model of `Hashmap_##K##_##V##_iterator_current_key`
(`&self->entry->key`; `none` models the undefined dereference of a NULL
entry). -/
def Hashmap_iterator_current_key {κ ν : Type}
    (st : Int × List (HEntry κ ν)) : Option κ :=
  st.2.head?.map (fun e => e.key)

/-- Model of `Hashmap_##K##_##V##_iterator_current_value`. -/
def Hashmap_iterator_current_value {κ ν : Type}
    (st : Int × List (HEntry κ ν)) : Option ν :=
  st.2.head?.map (fun e => e.value)

/-- Full map traversal: advance until `iterator_next` returns false,
collecting the current entry after every successful advance. -/
def hiterRun {κ ν : Type} (m : HMap κ ν) :
    Nat → Int × List (HEntry κ ν) → List (HEntry κ ν)
  | 0, _ => []
  | fuel + 1, st =>
    match Hashmap_iterator_next m st with
    | (true, i, e :: rest) => e :: hiterRun m fuel (i, e :: rest)
    | _ => []

/-! ### Helper lemmas for the vector claims -/

/-- Reading `Vector_get` at a nonnegative index, expressed through `getElem?`. -/
theorem Vector_get_eq_getElem? {α : Type} (v : CVec α) (i : Int) (h0 : 0 ≤ i) :
    Vector_get v i = ((v.data[i.toNat]?).map CPtr.valid).getD CPtr.null := by
  unfold Vector_get bufPtr Vector_size
  split
  · next hlt =>
    have hn : i.toNat < v.data.length := by omega
    rw [dif_pos ⟨h0, hlt⟩]
    simp [List.getElem?_eq_getElem hn, List.get_eq_getElem]
  · next hge =>
    have hn : ¬ i.toNat < v.data.length := by omega
    simp [List.getElem?_eq_none (by omega : v.data.length ≤ i.toNat)]

/-! ### Claims C2, C10, C8, C7 -/

/-- Claim C2 (demonstration of the divergence): `Vector_get` does not
check `index < 0`, so on a vector of size 1 the call `get(-1)` returns the
out-of-bounds pointer `&data[-1]` instead of the absent value `NULL`
required by the claim (and by the function's own documentation).  `set`
does bounds-check both ends, as the claim states. -/
theorem claim_C2_bug :
    Vector_get (⟨[42], 10⟩ : CVec Int) (-1) = CPtr.oob (-1) ∧
    Vector_get (⟨[42], 10⟩ : CVec Int) (-1) ≠ CPtr.null ∧
    Vector_set (⟨[42], 10⟩ : CVec Int) (-1) 7 = (false, ⟨[42], 10⟩) ∧
    Vector_set (⟨[42], 10⟩ : CVec Int) 1 7 = (false, ⟨[42], 10⟩) ∧
    Vector_set (⟨[42], 10⟩ : CVec Int) 0 7 = (true, ⟨[7], 10⟩) := by
  refine ⟨?_, ?_, ?_, ?_, ?_⟩ <;> decide

/-- Claim C10: the vector iterator's current-element operation returns
`NULL` whenever the cursor index is outside `0 ≤ index < size` — in
particular on a fresh iterator (index `-1`) and on an empty vector — and
otherwise returns the element stored at the cursor index. -/
theorem claim_C10 {α : Type} (v : CVec α) (index : Int) :
    (¬ (0 ≤ index ∧ index < Vector_size v) →
      Vector_iterator_current v index = CPtr.null) ∧
    (0 ≤ index → index < Vector_size v → ∀ a : α,
      Vector_iterator_current v index =
        CPtr.valid (v.data.getD index.toNat a)) ∧
    Vector_iterator_current v (Vector_get_iterator v) = CPtr.null ∧
    (v.data = [] → Vector_iterator_current v index = CPtr.null) := by
  refine ⟨?_, ?_, ?_, ?_⟩
  · intro h
    unfold Vector_iterator_current
    rw [if_neg]
    simp only [Bool.and_eq_true, decide_eq_true_eq]
    omega
  · intro h0 h1 a
    unfold Vector_iterator_current bufPtr
    rw [if_pos (by simp only [Bool.and_eq_true, decide_eq_true_eq]; omega),
      dif_pos ⟨h0, h1⟩]
    have hn : index.toNat < v.data.length := by
      simp only [Vector_size] at h1; omega
    simp [List.getD_eq_getElem?_getD, List.getElem?_eq_getElem hn,
      List.get_eq_getElem]
  · unfold Vector_iterator_current Vector_get_iterator
    rw [if_neg]
    simp
  · intro h
    have hsz : Vector_size v = 0 := by simp [Vector_size, h]
    unfold Vector_iterator_current
    rw [if_neg]
    simp only [Bool.and_eq_true, decide_eq_true_eq]
    omega

/-- Claim C10 witness: on the vector `[5, 6]` with the cursor at index 1,
the current element is `6`. -/
theorem claim_C10_witness :
    Vector_iterator_current (⟨[5, 6], 10⟩ : CVec Int) 1 = CPtr.valid 6 := by
  have h := (claim_C10 (⟨[5, 6], 10⟩ : CVec Int) 1).2.1
    (by decide) (by decide) 0
  simpa using h

/-- Claim C8: pushing 11 values into a vector of initial capacity 10
leaves size 11 and capacity exactly 20; in general a push increments the
size by one and doubles the capacity exactly when `size == capacity`
before the push, never otherwise. -/
theorem claim_C8 :
    Vector_size (pushN (0 : Int) (Vector_new Int 10) 11) = 11 ∧
    (pushN (0 : Int) (Vector_new Int 10) 11).capacity = 20 ∧
    ∀ (α : Type) (v : CVec α) (x : α),
      Vector_size (Vector_push v x) = Vector_size v + 1 ∧
      (Vector_push v x).capacity =
        (if Vector_size v = v.capacity then 2 * v.capacity
         else v.capacity) := by
  refine ⟨by decide, by decide, ?_⟩
  intro α v x
  constructor
  · simp [Vector_push, Vector_size]
  · rfl

/-- Indexing into a dropped prefix. -/
theorem getElem?_drop_add {α : Type} (l : List α) (n m : Nat) :
    (l.drop n)[m]? = l[n + m]? := by
  induction n generalizing l with
  | zero => simp
  | succ n ih =>
    cases l with
    | nil => simp
    | cons a l =>
      simp only [List.drop_succ_cons, ih l]
      have : n + 1 + m = (n + m) + 1 := by omega
      rw [this, List.getElem?_cons_succ]

/-- Indexing into the list produced by an insert-with-shift at slot `k`. -/
theorem insert_shape_getElem? {α : Type} (l : List α) (x : α) (k j : Nat)
    (hk : k ≤ l.length) :
    (l.take k ++ x :: l.drop k)[j]? =
      if j < k then l[j]? else if j = k then some x else l[j - 1]? := by
  have htk : (l.take k).length = k := by rw [List.length_take]; omega
  by_cases h1 : j < k
  · rw [List.getElem?_append_left (by omega), List.getElem?_take_of_lt h1,
      if_pos h1]
  · rw [List.getElem?_append_right (by omega), if_neg h1]
    by_cases h2 : j = k
    · rw [if_pos h2]
      have h3 : j - (l.take k).length = 0 := by omega
      rw [h3, List.getElem?_cons_zero]
    · rw [if_neg h2]
      have h3 : j - (l.take k).length = (j - 1 - k) + 1 := by omega
      rw [h3, List.getElem?_cons_succ, getElem?_drop_add]
      congr 1
      omega

/-- Indexing into the list produced by a remove-with-shift at slot
`k`. -/
theorem erase_shape_getElem? {α : Type} (l : List α) (k j : Nat)
    (hk : k < l.length) :
    (l.take k ++ l.drop (k + 1))[j]? =
      if j < k then l[j]? else l[j + 1]? := by
  have htk : (l.take k).length = k := by rw [List.length_take]; omega
  by_cases h1 : j < k
  · rw [List.getElem?_append_left (by omega), List.getElem?_take_of_lt h1,
      if_pos h1]
  · rw [List.getElem?_append_right (by omega), if_neg h1, getElem?_drop_add]
    congr 1
    omega

/-- Claim C7: for a valid index, `insert(i, v)` shifts the elements at
positions `i..size-1` up by one, `get(i)` then returns the inserted
value, elements before `i` are unchanged and the shifted elements keep
their relative order; `remove(i)` shifts positions `i+1..size-1` down by
one, so `get(i)` afterwards returns the element previously at `i+1`, or
`NULL` when `i` was the last position. -/
theorem claim_C7 {α : Type} (v : CVec α) (i : Int) (x : α) :
    (0 ≤ i → i ≤ Vector_size v →
      (Vector_insert v i x).1 = true ∧
      Vector_size (Vector_insert v i x).2 = Vector_size v + 1 ∧
      Vector_get (Vector_insert v i x).2 i = CPtr.valid x ∧
      (∀ j : Int, 0 ≤ j → j < i →
        Vector_get (Vector_insert v i x).2 j = Vector_get v j) ∧
      (∀ j : Int, i ≤ j → j < Vector_size v →
        Vector_get (Vector_insert v i x).2 (j + 1) = Vector_get v j)) ∧
    (0 ≤ i → i < Vector_size v →
      (Vector_remove v i).1 = true ∧
      Vector_size (Vector_remove v i).2 = Vector_size v - 1 ∧
      (∀ j : Int, 0 ≤ j → j < i →
        Vector_get (Vector_remove v i).2 j = Vector_get v j) ∧
      (∀ j : Int, i ≤ j → j < Vector_size v - 1 →
        Vector_get (Vector_remove v i).2 j = Vector_get v (j + 1)) ∧
      (i = Vector_size v - 1 →
        Vector_get (Vector_remove v i).2 i = CPtr.null)) := by
  constructor
  · intro h0 h1
    have hs : Vector_size v = (v.data.length : Int) := rfl
    have hcond : ¬ (i < 0 || Vector_size v < i) = true := by
      simp only [Bool.or_eq_true, decide_eq_true_eq]; omega
    have hk : i.toNat ≤ v.data.length := by omega
    have hres : (Vector_insert v i x).2.data =
        v.data.take i.toNat ++ x :: v.data.drop i.toNat := by
      unfold Vector_insert
      rw [if_neg hcond]
    have hlen : ((Vector_insert v i x).2.data).length = v.data.length + 1 := by
      rw [hres]
      simp only [List.length_append, List.length_cons, List.length_take,
        List.length_drop]
      omega
    have hsize : Vector_size (Vector_insert v i x).2 = Vector_size v + 1 := by
      simp only [Vector_size, hlen]
      push_cast
      ring
    refine ⟨by unfold Vector_insert; rw [if_neg hcond], hsize, ?_, ?_, ?_⟩
    · rw [Vector_get_eq_getElem? _ _ h0, hres,
        insert_shape_getElem? _ _ _ _ hk, if_neg (by omega), if_pos rfl]
      rfl
    · intro j hj0 hji
      rw [Vector_get_eq_getElem? _ _ hj0, Vector_get_eq_getElem? _ _ hj0, hres,
        insert_shape_getElem? _ _ _ _ hk, if_pos (by omega)]
    · intro j hij hjs
      have hj0 : 0 ≤ j := le_trans h0 hij
      rw [Vector_get_eq_getElem? _ _ (by omega), Vector_get_eq_getElem? _ _ hj0,
        hres, insert_shape_getElem? _ _ _ _ hk, if_neg (by omega),
        if_neg (by omega)]
      have h2 : (j + 1).toNat - 1 = j.toNat := by omega
      rw [h2]
  · intro h0 h1
    have hs : Vector_size v = (v.data.length : Int) := rfl
    have hcond : ¬ (i < 0 || Vector_size v ≤ i) = true := by
      simp only [Bool.or_eq_true, decide_eq_true_eq]; omega
    have hk : i.toNat < v.data.length := by omega
    have hres : (Vector_remove v i).2.data =
        v.data.take i.toNat ++ v.data.drop (i.toNat + 1) := by
      unfold Vector_remove
      rw [if_neg hcond]
    have hlen : ((Vector_remove v i).2.data).length = v.data.length - 1 := by
      rw [hres]
      simp only [List.length_append, List.length_take, List.length_drop]
      omega
    have hsize : Vector_size (Vector_remove v i).2 = Vector_size v - 1 := by
      simp only [Vector_size, hlen]
      omega
    refine ⟨by unfold Vector_remove; rw [if_neg hcond], hsize, ?_, ?_, ?_⟩
    · intro j hj0 hji
      rw [Vector_get_eq_getElem? _ _ hj0, Vector_get_eq_getElem? _ _ hj0, hres,
        erase_shape_getElem? _ _ _ hk, if_pos (by omega)]
    · intro j hij hjs
      have hj0 : 0 ≤ j := le_trans h0 hij
      rw [Vector_get_eq_getElem? _ _ hj0, Vector_get_eq_getElem? _ _ (by omega),
        hres, erase_shape_getElem? _ _ _ hk, if_neg (by omega)]
      have h2 : j.toNat + 1 = (j + 1).toNat := by omega
      rw [h2]
    · intro hlast
      rw [Vector_get_eq_getElem? _ _ h0, hres, List.getElem?_eq_none]
      · rfl
      · simp only [List.length_append, List.length_take, List.length_drop]
        omega

/-- Claim C7 witness: on `[10, 20, 30]`, `insert(1, 99)` succeeds and
`get(1)` afterwards yields `99`; `remove(1)` succeeds and `get(1)`
afterwards yields the old element at index 2. -/
theorem claim_C7_witness :
    Vector_get (Vector_insert (⟨[10, 20, 30], 10⟩ : CVec Int) 1 99).2 1 =
      CPtr.valid 99 ∧
    Vector_get (Vector_remove (⟨[10, 20, 30], 10⟩ : CVec Int) 1).2 1 =
      CPtr.valid 30 := by
  constructor
  · exact ((claim_C7 (⟨[10, 20, 30], 10⟩ : CVec Int) 1 99).1
      (by decide) (by decide)).2.2.1
  · have h := ((claim_C7 (⟨[10, 20, 30], 10⟩ : CVec Int) 1 99).2
      (by decide) (by decide)).2.2.2.1 1 (by decide) (by decide)
    rw [h]
    decide

/-- Lemma: `strcmp(s1,s2) == 0` holds exactly when the byte sequences are
equal. -/
theorem strcmpEq_iff : ∀ s1 s2 : List Char, strcmpEq s1 s2 = true ↔ s1 = s2
  | [], [] => by simp [strcmpEq]
  | [], _ :: _ => by simp [strcmpEq]
  | _ :: _, [] => by simp [strcmpEq]
  | a :: as, b :: bs => by
    simp [strcmpEq, Bool.and_eq_true, beq_iff_eq, strcmpEq_iff as bs]

/-- Claim C1 counterexample: with the default behaviors of
`VECTOR_DEFINE(cstr)`, two distinct text pointers with equal byte
sequences do not compare equal, so the array engine's value search misses
a content-equal element: the claim fails for the array engine. -/
theorem claim_C1_counterexample :
    strcmpEq (cexMem 0) (cexMem 1) = true ∧
    Vector_cstr_equals 0 1 = false ∧
    Vector_contains Vector_cstr_equals (⟨[0], 10⟩ : CVec Nat) 1 = false := by
  refine ⟨by decide, by decide, by decide⟩

/-- Claim C1 as amended: the hash-table engine's default equality for
text pointers returns true exactly when the two null-terminated byte
sequences are equal (pointer identity irrelevant); the array engine's
default equality from `VECTOR_DEFINE` is the raw `==` on the pointer
value, so for text pointers it returns true exactly when the two pointers
are identical. -/
theorem claim_C1_amended :
    (∀ (mem : Nat → List Char) (k1 k2 : Nat),
      Hashmap_cstr_equals mem k1 k2 = true ↔ mem k1 = mem k2) ∧
    (∀ e1 e2 : Nat, Vector_cstr_equals e1 e2 = true ↔ e1 = e2) := by
  constructor
  · intro mem k1 k2
    exact strcmpEq_iff (mem k1) (mem k2)
  · intro e1 e2
    simp [Vector_cstr_equals]

/-- A full vector traversal starting just before position `j` visits the
indices `j, j+1, ..., size-1` in order (any fuel beyond the remaining
count is enough). -/
theorem viterRun_from {α : Type} (v : CVec α) :
    ∀ (fuel : Nat) (j : Nat), j ≤ v.data.length →
      v.data.length - j < fuel →
      viterRun v fuel ((j : Int) - 1) =
        (List.range' j (v.data.length - j)).map (fun n : Nat => (n : Int)) := by
  intro fuel
  induction fuel with
  | zero => intro j hj hf; omega
  | succ fuel ih =>
    intro j hj hf
    by_cases hlt : j < v.data.length
    · have hnext : Vector_iterator_next v ((j : Int) - 1) =
          (true, (j : Int)) := by
        unfold Vector_iterator_next
        rw [if_pos (by simp only [Vector_size]; omega)]
        congr 1
        ring
      have hrange : v.data.length - j = (v.data.length - (j + 1)) + 1 := by
        omega
      rw [viterRun, hnext]
      simp only [if_pos rfl]
      have hrec : viterRun v fuel ((j : Int)) =
          (List.range' (j + 1) (v.data.length - (j + 1))).map
            (fun n : Nat => (n : Int)) := by
        have := ih (j + 1) (by omega) (by omega)
        have hcast : ((j + 1 : Nat) : Int) - 1 = (j : Int) := by push_cast; ring
        rwa [hcast] at this
      rw [hrec, hrange, List.range'_succ]
      simp
    · have hj' : j = v.data.length := by omega
      have hnext : (Vector_iterator_next v ((j : Int) - 1)).1 = false := by
        unfold Vector_iterator_next
        rw [if_neg (by simp only [Vector_size]; omega)]
      rw [viterRun]
      simp only [hnext, if_neg (Bool.false_ne_true)]
      rw [hj', Nat.sub_self]
      simp

/-! ### Bit-level facts about the power-of-two mask -/

/-- Bitwise AND of an even and an odd number, one binary digit down. -/
theorem land_even_odd (a b : ℕ) : (2*a) &&& (2*b+1) = 2*(a &&& b) := by
  apply Nat.eq_of_testBit_eq
  intro i
  cases i with
  | zero =>
    rw [Nat.testBit_and, Nat.testBit_zero, Nat.testBit_zero, Nat.testBit_zero]
    simp [Nat.mul_mod_right]
  | succ i =>
    have h1 : 2 * a / 2 = a := by omega
    have h2 : (2 * b + 1) / 2 = b := by omega
    have h3 : 2 * (a &&& b) / 2 = a &&& b := by omega
    rw [Nat.testBit_and, Nat.testBit_add_one, Nat.testBit_add_one,
      Nat.testBit_add_one, h1, h2, h3, Nat.testBit_and]

/-- Bitwise AND of an odd and an even number, one binary digit down. -/
theorem land_odd_even (a b : ℕ) : (2*a+1) &&& (2*b) = 2*(a &&& b) := by
  apply Nat.eq_of_testBit_eq
  intro i
  cases i with
  | zero =>
    rw [Nat.testBit_and, Nat.testBit_zero, Nat.testBit_zero, Nat.testBit_zero]
    simp [Nat.mul_mod_right]
  | succ i =>
    have h1 : (2 * a + 1) / 2 = a := by omega
    have h2 : 2 * b / 2 = b := by omega
    have h3 : 2 * (a &&& b) / 2 = a &&& b := by omega
    rw [Nat.testBit_and, Nat.testBit_add_one, Nat.testBit_add_one,
      Nat.testBit_add_one, h1, h2, h3, Nat.testBit_and]

/-- A positive number whose AND with its predecessor vanishes is a power
of two (the forward direction of the constructor's check). -/
theorem nat_pow2_of_and_pred (n : ℕ) :
    0 < n → n &&& (n - 1) = 0 → ∃ c : ℕ, n = 2^c := by
  induction n using Nat.strong_induction_on with
  | _ n ih =>
    intro hn hand
    rcases Nat.even_or_odd n with he | ho
    · obtain ⟨m, hm⟩ := he
      have hm2 : n = 2 * m := by omega
      have hm1 : 0 < m := by omega
      have hrw : n - 1 = 2 * (m - 1) + 1 := by omega
      rw [hrw, hm2, land_even_odd] at hand
      have hand2 : m &&& (m - 1) = 0 := by omega
      obtain ⟨c, hc⟩ := ih m (by omega) hm1 hand2
      exact ⟨c + 1, by rw [hm2, hc]; ring⟩
    · obtain ⟨m, hm⟩ := ho
      have hrw : n - 1 = 2 * m := by omega
      rw [hrw, hm, land_odd_even, Nat.and_self] at hand
      have hm0 : m = 0 := by omega
      exact ⟨0, by omega⟩

/-- A power of two ANDed with its predecessor vanishes (the backward
direction of the constructor's check). -/
theorem nat_and_pred_pow2 (c : ℕ) : (2^c) &&& (2^c - 1) = 0 := by
  induction c with
  | zero => simp
  | succ c ih =>
    have h1 : 2^(c+1) = 2 * 2^c := by ring
    have h2 : 2^(c+1) - 1 = 2 * (2^c - 1) + 1 := by
      have h3 : (1:ℕ) ≤ 2^c := Nat.one_le_two_pow
      omega
    rw [h2, h1, land_even_odd, ih]

/-- The constructor's check `capacity > 0 && (capacity & (capacity - 1))
== 0` succeeds exactly on the powers of two. -/
theorem pow2_check_iff (cap : Int) :
    (0 < cap && Int.land cap (cap - 1) == 0) = true ↔ ∃ c : ℕ, cap = 2^c := by
  constructor
  · intro hchk
    simp only [Bool.and_eq_true, decide_eq_true_eq, beq_iff_eq] at hchk
    obtain ⟨hpos, hand⟩ := hchk
    obtain ⟨n, rfl⟩ := Int.eq_ofNat_of_zero_le (le_of_lt hpos)
    have hn : 0 < n := by exact_mod_cast hpos
    have hsub : ((n : ℤ) - 1) = ((n - 1 : ℕ) : ℤ) := by push_cast [hn]; ring
    rw [hsub] at hand
    have heq : Int.land ((n : ℕ) : ℤ) ((n - 1 : ℕ) : ℤ) =
        ((n &&& (n - 1) : ℕ) : ℤ) := rfl
    rw [heq] at hand
    have hand2 : n &&& (n - 1) = 0 := by exact_mod_cast hand
    obtain ⟨c, hc⟩ := nat_pow2_of_and_pred n hn hand2
    exact ⟨c, by rw [hc]; push_cast; ring⟩
  · rintro ⟨c, rfl⟩
    simp only [Bool.and_eq_true, decide_eq_true_eq, beq_iff_eq]
    constructor
    · positivity
    · have hcast : ((2:ℤ)^c - 1) = ((2^c - 1 : ℕ) : ℤ) := by
        have h1 : (1:ℕ) ≤ 2^c := Nat.one_le_two_pow
        push_cast [h1]
        ring
      have hc2 : ((2:ℤ)^c) = ((2^c : ℕ) : ℤ) := by push_cast; ring
      rw [hcast, hc2]
      have heq : Int.land ((2^c : ℕ) : ℤ) ((2^c - 1 : ℕ) : ℤ) =
          ((2^c &&& (2^c - 1) : ℕ) : ℤ) := rfl
      rw [heq, nat_and_pred_pow2]
      rfl

/-- The bucket index is always inside a power-of-two bucket array. -/
theorem hidx_lt_pow (h : Int) (c : ℕ) : hidx h ((2:ℤ)^c) < 2^c := by
  have hcast : ((2:ℤ)^c - 1) = ((2^c - 1 : ℕ) : ℤ) := by
    have h1 : (1:ℕ) ≤ 2^c := Nat.one_le_two_pow
    push_cast [h1]
    ring
  unfold hidx
  rw [hcast]
  cases h with
  | ofNat n =>
    have heq : Int.land (Int.ofNat n) ((2^c - 1 : ℕ) : ℤ) =
        ((n &&& (2^c - 1) : ℕ) : ℤ) := rfl
    rw [heq, Int.toNat_natCast]
    exact Nat.and_lt_two_pow n (by have := Nat.one_le_two_pow (n := c); omega)
  | negSucc m =>
    have heq : Int.land (Int.negSucc m) ((2^c - 1 : ℕ) : ℤ) =
        ((Nat.ldiff (2^c - 1) m : ℕ) : ℤ) := rfl
    rw [heq, Int.toNat_natCast]
    apply Nat.lt_pow_two_of_testBit
    intro i hi
    rw [Nat.testBit_ldiff]
    simp [Nat.testBit_two_pow_sub_one, Nat.not_lt.mpr hi]

/-- Claim C4: constructing a map with a capacity that is not a positive
power of two is fatal (the call path terminates, yielding no instance);
with a positive power of two it succeeds and returns an empty map of that
capacity; the array constructor accepts any positive capacity with no
such check. -/
theorem claim_C4 :
    hashmap_new_with_capacity Int Int 10 = none ∧
    hashmap_new_with_capacity Int Int 8 = some (Hashmap_new Int Int 8) ∧
    (Hashmap_new Int Int 8).size = 0 ∧
    (Hashmap_new Int Int 8).capacity = 8 ∧
    (∀ cap : Int, (¬ ∃ c : ℕ, cap = 2^c) →
      hashmap_new_with_capacity Int Int cap = none) ∧
    (∀ cap : Int, (∃ c : ℕ, cap = 2^c) →
      hashmap_new_with_capacity Int Int cap =
        some (Hashmap_new Int Int cap) ∧
      (Hashmap_new Int Int cap).size = 0 ∧
      (Hashmap_new Int Int cap).capacity = cap) ∧
    (∀ cap : Int, 0 < cap →
      Vector_new Int cap = ⟨[], cap⟩ ∧
      Vector_size (Vector_new Int cap) = 0 ∧
      (Vector_new Int cap).capacity = cap) := by
  refine ⟨by decide, by decide, by decide, by decide, ?_, ?_, ?_⟩
  · intro cap hnp
    unfold hashmap_new_with_capacity
    rw [if_neg (fun hchk => hnp ((pow2_check_iff cap).mp hchk))]
  · intro cap hp
    refine ⟨?_, rfl, rfl⟩
    unfold hashmap_new_with_capacity
    rw [if_pos ((pow2_check_iff cap).mpr hp)]
  · intro cap _
    exact ⟨rfl, rfl, rfl⟩

/-- Claim C4 witness: capacity 12 is rejected fatally, capacity 16 is
accepted, and the array constructor accepts capacity 7. -/
theorem claim_C4_witness :
    hashmap_new_with_capacity Int Int 12 = none ∧
    hashmap_new_with_capacity Int Int 16 = some (Hashmap_new Int Int 16) ∧
    Vector_size (Vector_new Int 7) = 0 := by
  refine ⟨claim_C4.2.2.2.2.1 12 ?_, (claim_C4.2.2.2.2.2.1 16 ⟨4, by norm_num⟩).1,
    (claim_C4.2.2.2.2.2.2 7 (by norm_num)).2.1⟩
  rintro ⟨c, hc⟩
  have hlt : c < 4 := by
    by_contra hge
    push_neg at hge
    have h16 : (16:ℤ) ≤ 2^c := by
      calc (16:ℤ) = 2^4 := by norm_num
        _ ≤ 2^c := by
          apply pow_le_pow_right₀ (by norm_num) hge
    omega
  interval_cases c <;> norm_num at hc

/-! ### List utilities -/

/-- Reading with `getD` after `set` at the same (in-range) position. -/
theorem getD_set_self {β : Type} (bs : List β) (i : Nat) (x d : β)
    (h : i < bs.length) : (bs.set i x).getD i d = x := by
  rw [List.getD_eq_getElem?_getD, List.getElem?_set_self h]
  rfl

/-- Reading with `getD` after `set` at a different position. -/
theorem getD_set_ne {β : Type} (bs : List β) (i j : Nat) (x d : β)
    (h : i ≠ j) : (bs.set i x).getD j d = bs.getD j d := by
  rw [List.getD_eq_getElem?_getD, List.getElem?_set_ne h,
    ← List.getD_eq_getElem?_getD]

/-- Every slot of an all-empty bucket array reads as the empty chain. -/
theorem getD_replicate_nil {β : Type} (n j : Nat) :
    (List.replicate n ([] : List β)).getD j [] = [] := by
  rw [List.getD_eq_getElem?_getD]
  rcases Nat.lt_or_ge j n with h | h
  · rw [List.getElem?_eq_getElem (by simpa using h)]
    simp
  · rw [List.getElem?_eq_none (by simpa using h)]
    rfl

/-- Every slot of a cleared bucket array reads as the empty chain. -/
theorem getD_map_nil {β γ : Type} (bs : List β) (j : Nat) :
    ((bs.map (fun _ => ([] : List γ))).getD j []) = [] := by
  rw [List.getD_eq_getElem?_getD]
  rcases Nat.lt_or_ge j bs.length with h | h
  · rw [List.getElem?_eq_getElem (by simpa using h)]
    simp
  · rw [List.getElem?_eq_none (by simpa using h)]
    rfl

/-- Total entry count after replacing one bucket. -/
theorem sum_length_set {β : Type} :
    ∀ (bs : List (List β)) (i : Nat) (x : List β), i < bs.length →
      ((bs.set i x).map List.length).sum + (bs.getD i []).length
        = (bs.map List.length).sum + x.length := by
  intro bs
  induction bs with
  | nil => intro i x h; simp at h
  | cons b rest ih =>
    intro i x h
    cases i with
    | zero => simp [List.set]; omega
    | succ i =>
      have hrec := ih i x (by simpa using Nat.lt_of_succ_lt_succ h)
      simp only [List.set, List.map_cons, List.sum_cons, List.getD_cons_succ]
      omega

/-- The resize relink loop does not change the number of buckets. -/
theorem length_scatter {κ ν : Type} (cap : Int) :
    ∀ (l : List (HEntry κ ν)) (bs : List (List (HEntry κ ν))),
      (l.foldl (bucketInsert cap) bs).length = bs.length := by
  intro l
  induction l with
  | nil => intro bs; rfl
  | cons e l ih =>
    intro bs
    rw [List.foldl_cons, ih]
    simp [bucketInsert]

/-- The resize relink loop inserts every entry exactly once. -/
theorem sum_length_scatter {κ ν : Type} (cap : Int) :
    ∀ (l : List (HEntry κ ν)) (bs : List (List (HEntry κ ν))),
      (∀ e ∈ l, hidx e.hash cap < bs.length) →
      ((l.foldl (bucketInsert cap) bs).map List.length).sum
        = (bs.map List.length).sum + l.length := by
  intro l
  induction l with
  | nil => intro bs _; simp
  | cons e l ih =>
    intro bs hall
    have he : hidx e.hash cap < bs.length := hall e (List.mem_cons_self e l)
    have hlen : ∀ x ∈ l, hidx x.hash cap < (bucketInsert cap bs e).length := by
      intro x hx
      have : (bucketInsert cap bs e).length = bs.length := by
        simp [bucketInsert]
      rw [this]
      exact hall x (List.mem_cons_of_mem e hx)
    rw [List.foldl_cons, ih (bucketInsert cap bs e) hlen]
    have hsum := sum_length_set bs (hidx e.hash cap)
      (e :: bs.getD (hidx e.hash cap) []) he
    simp only [bucketInsert, List.length_cons] at hsum ⊢
    omega

/-- Bucket contents after the resize relink loop: slot `j` holds, in
reverse, the entries of the input stream whose mask sends them to `j`,
head-inserted in stream order on top of the initial slot contents. -/
theorem getD_scatter {κ ν : Type} (cap : Int) :
    ∀ (l : List (HEntry κ ν)) (bs : List (List (HEntry κ ν))) (j : Nat),
      (∀ e ∈ l, hidx e.hash cap < bs.length) →
      (l.foldl (bucketInsert cap) bs).getD j [] =
        (l.filter (fun e => hidx e.hash cap == j)).reverse ++ bs.getD j [] := by
  intro l
  induction l with
  | nil => intro bs j _; simp
  | cons e l ih =>
    intro bs j hall
    have he : hidx e.hash cap < bs.length := hall e (List.mem_cons_self e l)
    have hlen : ∀ x ∈ l, hidx x.hash cap < (bucketInsert cap bs e).length := by
      intro x hx
      have hl : (bucketInsert cap bs e).length = bs.length := by
        simp [bucketInsert]
      rw [hl]
      exact hall x (List.mem_cons_of_mem e hx)
    rw [List.foldl_cons, ih (bucketInsert cap bs e) j hlen]
    by_cases hj : hidx e.hash cap = j
    · rw [List.filter_cons_of_pos (by simpa using hj)]
      have hbi : (bucketInsert cap bs e).getD j [] = e :: bs.getD j [] := by
        unfold bucketInsert
        rw [hj, getD_set_self _ _ _ _ (hj ▸ he)]
      rw [hbi]
      simp
    · rw [List.filter_cons_of_neg (by simpa using hj)]
      have hbi : (bucketInsert cap bs e).getD j [] = bs.getD j [] := by
        unfold bucketInsert
        exact getD_set_ne _ _ _ _ _ hj
      rw [hbi]

/-! ### Chain-level lemmas -/

/-- Lemma: `chainGet` returns the value of the first `equals`-matching entry. -/
theorem chainGet_eq_filter_head {κ ν : Type} (equals : κ → κ → Bool) (k : κ) :
    ∀ l : List (HEntry κ ν),
      chainGet equals k l =
        ((l.filter (fun e => equals e.key k)).head?).map (fun e => e.value) := by
  intro l
  induction l with
  | nil => rfl
  | cons e rest ih =>
    by_cases h : equals e.key k = true
    · rw [chainGet, if_pos h, List.filter_cons_of_pos (by simpa using h)]
      rfl
    · rw [chainGet, if_neg h,
        List.filter_cons_of_neg (by simpa using h), ih]

/-- Lemma: `chainPut` appends a fresh entry at the tail when (and only when) no
entry passes the `hash`-and-`equals` check; its Boolean records this. -/
theorem chainPut_snd_iff {κ ν : Type} (equals : κ → κ → Bool) (h : Int)
    (k : κ) (v : ν) :
    ∀ l : List (HEntry κ ν),
      (chainPut equals h k v l).2 = true ↔
        ∀ e ∈ l, (e.hash == h && equals e.key k) = false := by
  intro l
  induction l with
  | nil => simp [chainPut]
  | cons e rest ih =>
    by_cases hc : (e.hash == h && equals e.key k) = true
    · rw [chainPut, if_pos hc]
      simp only [List.mem_cons]
      constructor
      · intro hfalse; cases hfalse
      · intro hall
        have := hall e (Or.inl rfl)
        rw [hc] at this
        cases this
    · rw [chainPut, if_neg hc]
      simp only [List.mem_cons]
      constructor
      · intro hsnd x hx
        rcases hx with rfl | hx
        · simpa using hc
        · exact (ih.mp hsnd) x hx
      · intro hall
        exact ih.mpr (fun x hx => hall x (Or.inr hx))

/-- When no entry matches, `chainPut` is exactly a tail append. -/
theorem chainPut_fst_of_not_found {κ ν : Type} (equals : κ → κ → Bool)
    (h : Int) (k : κ) (v : ν) :
    ∀ l : List (HEntry κ ν),
      (∀ e ∈ l, (e.hash == h && equals e.key k) = false) →
      (chainPut equals h k v l).1 = l ++ [⟨k, v, h⟩] := by
  intro l
  induction l with
  | nil => intro _; rfl
  | cons e rest ih =>
    intro hall
    have hc : ¬ (e.hash == h && equals e.key k) = true := by
      rw [hall e (List.mem_cons_self e rest)]
      exact Bool.false_ne_true
    rw [chainPut, if_neg hc]
    simp only [List.cons_append, List.cons.injEq]
    exact ⟨trivial, ih (fun x hx => hall x (List.mem_cons_of_mem e hx))⟩

/-- When an entry matches, `chainPut` keeps every key and cached hash in
place (only one value changes). -/
theorem chainPut_keys_hashes_of_found {κ ν : Type} (equals : κ → κ → Bool)
    (h : Int) (k : κ) (v : ν) :
    ∀ l : List (HEntry κ ν),
      (chainPut equals h k v l).2 = false →
      (chainPut equals h k v l).1.map (fun e => (e.key, e.hash)) =
        l.map (fun e => (e.key, e.hash)) := by
  intro l
  induction l with
  | nil => intro hfd; simp [chainPut] at hfd
  | cons e rest ih =>
    intro hfd
    by_cases hc : (e.hash == h && equals e.key k) = true
    · rw [chainPut, if_pos hc]
      rfl
    · rw [chainPut, if_neg hc]
      rw [chainPut, if_neg hc] at hfd
      simp only [List.map_cons, List.cons.injEq]
      exact ⟨trivial, ih hfd⟩

/-- The chain length after `chainPut`: one more on append, unchanged on
in-place update. -/
theorem chainPut_length {κ ν : Type} (equals : κ → κ → Bool) (h : Int)
    (k : κ) (v : ν) :
    ∀ l : List (HEntry κ ν),
      ((chainPut equals h k v l).1).length =
        l.length + (if (chainPut equals h k v l).2 then 1 else 0) := by
  intro l
  induction l with
  | nil => rfl
  | cons e rest ih =>
    by_cases hc : (e.hash == h && equals e.key k) = true
    · rw [chainPut, if_pos hc]
      simp
    · rw [chainPut, if_neg hc]
      simp only [List.length_cons]
      omega

/-- Every entry of a `chainPut` result is an old entry, an old entry
with its value replaced, or the fresh entry. -/
theorem chainPut_mem {κ ν : Type} (equals : κ → κ → Bool) (h : Int)
    (k : κ) (v : ν) :
    ∀ (l : List (HEntry κ ν)) (x : HEntry κ ν),
      x ∈ (chainPut equals h k v l).1 →
      (∃ e ∈ l, x.key = e.key ∧ x.hash = e.hash) ∨ x = ⟨k, v, h⟩ := by
  intro l
  induction l with
  | nil =>
    intro x hx
    simp only [chainPut, List.mem_singleton] at hx
    exact Or.inr hx
  | cons e rest ih =>
    intro x hx
    by_cases hc : (e.hash == h && equals e.key k) = true
    · rw [chainPut, if_pos hc] at hx
      rcases List.mem_cons.mp hx with rfl | hx
      · exact Or.inl ⟨e, List.mem_cons_self e rest, rfl, rfl⟩
      · exact Or.inl ⟨x, List.mem_cons_of_mem e hx, rfl, rfl⟩
    · rw [chainPut, if_neg hc] at hx
      rcases List.mem_cons.mp hx with rfl | hx
      · exact Or.inl ⟨x, List.mem_cons_self x rest, rfl, rfl⟩
      · rcases ih x hx with ⟨e2, he2, hk2, hh2⟩ | hnew
        · exact Or.inl ⟨e2, List.mem_cons_of_mem e he2, hk2, hh2⟩
        · exact Or.inr hnew

/-- A successful `chainRemove` result is a sublist of the input chain. -/
theorem chainRemove_sublist {κ ν : Type} (equals : κ → κ → Bool) (h : Int)
    (k : κ) :
    ∀ (l l2 : List (HEntry κ ν)), chainRemove equals h k l = some l2 →
      l2.Sublist l := by
  intro l
  induction l with
  | nil => intro l2 hl2; simp [chainRemove] at hl2
  | cons e rest ih =>
    intro l2 hl2
    by_cases hc : (e.hash == h && equals e.key k) = true
    · rw [chainRemove, if_pos hc, Option.some.injEq] at hl2
      rw [← hl2]
      exact List.sublist_cons_self e rest
    · rw [chainRemove, if_neg hc] at hl2
      rcases Option.map_eq_some'.mp hl2 with ⟨l3, hl3, rfl⟩
      exact List.Sublist.cons₂ e (ih l3 hl3)

/-- A successful `chainRemove` removes exactly one entry. -/
theorem chainRemove_length {κ ν : Type} (equals : κ → κ → Bool) (h : Int)
    (k : κ) :
    ∀ (l l2 : List (HEntry κ ν)), chainRemove equals h k l = some l2 →
      l2.length + 1 = l.length := by
  intro l
  induction l with
  | nil => intro l2 hl2; simp [chainRemove] at hl2
  | cons e rest ih =>
    intro l2 hl2
    by_cases hc : (e.hash == h && equals e.key k) = true
    · rw [chainRemove, if_pos hc, Option.some.injEq] at hl2
      rw [← hl2]
      simp
    · rw [chainRemove, if_neg hc] at hl2
      rcases Option.map_eq_some'.mp hl2 with ⟨l3, hl3, rfl⟩
      simp only [List.length_cons]
      rw [← ih l3 hl3]

/-- Reading with `getD` at an in-range position. -/
theorem getD_eq_getElem_of_lt {β : Type} (bs : List β) (j : Nat) (d : β)
    (h : j < bs.length) : bs.getD j d = bs[j] := by
  rw [List.getD_eq_getElem?_getD, List.getElem?_eq_getElem h]
  rfl

/-- Reading with `getD` past the end. -/
theorem getD_eq_default_of_ge {β : Type} (bs : List β) (j : Nat) (d : β)
    (h : bs.length ≤ j) : bs.getD j d = d := by
  rw [List.getD_eq_getElem?_getD, List.getElem?_eq_none h]
  rfl

/-- Membership in the concatenation of all buckets, slot-wise. -/
theorem mem_flatten_getD {β : Type} (bs : List (List β)) (x : β) :
    x ∈ bs.flatten ↔ ∃ j : ℕ, x ∈ bs.getD j [] := by
  rw [List.mem_flatten]
  constructor
  · rintro ⟨l, hl, hx⟩
    obtain ⟨j, hj, hgl⟩ := List.mem_iff_getElem.mp hl
    refine ⟨j, ?_⟩
    rw [getD_eq_getElem_of_lt bs j [] hj, hgl]
    exact hx
  · rintro ⟨j, hx⟩
    rcases Nat.lt_or_ge j bs.length with h | h
    · rw [getD_eq_getElem_of_lt bs j [] h] at hx
      exact ⟨bs[j], List.getElem_mem h, hx⟩
    · rw [getD_eq_default_of_ge bs j [] h] at hx
      cases hx

/-- If a predicate can only hold in slot `i`, filtering the flattened
buckets is filtering slot `i`. -/
theorem filter_flatten_single {β : Type} :
    ∀ (bs : List (List β)) (p : β → Bool) (i : ℕ),
      (∀ (j : ℕ) (x : β), x ∈ bs.getD j [] → p x = true → j = i) →
      bs.flatten.filter p = (bs.getD i []).filter p := by
  intro bs
  induction bs with
  | nil => intro p i _; simp
  | cons b rest ih =>
    intro p i hso
    rw [List.flatten_cons, List.filter_append]
    cases i with
    | zero =>
      have hnil : (rest.flatten).filter p = [] := by
        rw [List.filter_eq_nil_iff]
        intro x hx hpx
        obtain ⟨j, hj⟩ := (mem_flatten_getD rest x).mp hx
        have := hso (j + 1) x (by simpa using hj) hpx
        omega
      rw [hnil, List.append_nil]
      rfl
    | succ i =>
      have hnil : b.filter p = [] := by
        rw [List.filter_eq_nil_iff]
        intro x hx hpx
        have := hso 0 x (by simpa using hx) hpx
        omega
      rw [hnil, List.nil_append, List.getD_cons_succ]
      exact ih p i (fun j x hx hpx => by
        have := hso (j + 1) x (by simpa using hx) hpx
        omega)

/-- A chain in which no two entries can both match has at most one
match. -/
theorem filter_length_le_one_of_pairwise {β : Type} (p : β → Bool) :
    ∀ l : List β,
      l.Pairwise (fun a b => ¬(p a = true ∧ p b = true)) →
      (l.filter p).length ≤ 1 := by
  intro l
  induction l with
  | nil => intro _; simp
  | cons a rest ih =>
    intro hpw
    rw [List.pairwise_cons] at hpw
    by_cases hpa : p a = true
    · have hnil : rest.filter p = [] := by
        rw [List.filter_eq_nil_iff]
        intro x hx hpx
        exact hpw.1 x hx ⟨hpa, hpx⟩
      rw [List.filter_cons_of_pos hpa, hnil]
      simp
    · rw [List.filter_cons_of_neg hpa]
      exact ih hpw.2

/-- Reversal is the identity on lists of at most one element. -/
theorem reverse_of_length_le_one {β : Type} (l : List β)
    (h : l.length ≤ 1) : l.reverse = l := by
  cases l with
  | nil => rfl
  | cons a rest =>
    cases rest with
    | nil => rfl
    | cons b rest2 => simp at h

/-- The integer power of two, as a natural number. -/
theorem toNat_two_pow (c : ℕ) : ((2:ℤ)^c).toNat = 2^c := by
  have h : ((2:ℤ)^c) = ((2^c : ℕ) : ℤ) := by push_cast; ring
  rw [h, Int.toNat_natCast]

/-- A fresh bucket array holds no entries. -/
theorem sum_length_replicate_nil {β : Type} (n : Nat) :
    ((List.replicate n ([] : List β)).map List.length).sum = 0 := by
  induction n with
  | zero => rfl
  | succ n ih => simp [List.replicate_succ, ih]

/-! ### Behavior of resize -/

/-- Bucket contents of the resized map: slot `j` holds exactly the old
entries whose cached hash masks to `j` under the doubled capacity, in
reverse traversal order (head insertion reverses each chain). -/
theorem resize_buckets_getD {κ ν : Type} (m : HMap κ ν) (c : ℕ)
    (hcap : m.capacity = (2:ℤ)^c) (j : ℕ) :
    (Hashmap_resize m).buckets.getD j [] =
      (m.buckets.flatten.filter
        (fun e => hidx e.hash (2 * m.capacity) == j)).reverse := by
  have hall : ∀ e ∈ m.buckets.flatten,
      hidx e.hash (2 * m.capacity) <
        (List.replicate (2 * m.capacity).toNat
          ([] : List (HEntry κ ν))).length := by
    intro e _
    rw [List.length_replicate]
    have h2 : 2 * m.capacity = (2:ℤ)^(c+1) := by rw [hcap]; ring
    rw [h2, toNat_two_pow]
    exact hidx_lt_pow e.hash (c+1)
  show (m.buckets.flatten.foldl (bucketInsert (2 * m.capacity))
      (List.replicate (2 * m.capacity).toNat [])).getD j [] = _
  rw [getD_scatter (2 * m.capacity) m.buckets.flatten _ j hall,
    getD_replicate_nil, List.append_nil]

/-- Resize does not change the capacity invariant shape. -/
theorem HInv_resize {κ ν : Type} (hash : κ → Int) (equals : κ → κ → Bool)
    (heq : EqOk hash equals) (m : HMap κ ν) (hinv : HInv hash equals m) :
    HInv hash equals (Hashmap_resize m) := by
  obtain ⟨⟨⟨c, hcap⟩, hlen⟩, hent, hnd, hsz⟩ := hinv
  have hcap2 : (Hashmap_resize m).capacity = 2 * m.capacity := rfl
  have hflatpw : m.buckets.flatten.Pairwise
      (fun e1 e2 : HEntry κ ν => equals e1.key e2.key = false) := by
    rw [List.pairwise_flatten]
    constructor
    · intro l hl
      obtain ⟨i, hi, hgl⟩ := List.mem_iff_getElem.mp hl
      have := hnd i
      rwa [getD_eq_getElem_of_lt m.buckets i [] hi, hgl] at this
    · rw [List.pairwise_iff_getElem]
      intro i j hi hj hij x hx y hy
      have hxi := hent i x
        (by rw [getD_eq_getElem_of_lt m.buckets i [] hi]; exact hx)
      have hyj := hent j y
        (by rw [getD_eq_getElem_of_lt m.buckets j [] hj]; exact hy)
      cases hxy : equals x.key y.key with
      | false => rfl
      | true =>
        exfalso
        have hh : hash x.key = hash y.key := heq.hashEq _ _ hxy
        have : i = j := by
          rw [← hxi.2, ← hyj.2, hxi.1, hyj.1, hh]
        omega
  refine ⟨⟨⟨c + 1, by rw [hcap2, hcap]; ring⟩, ?_⟩, ?_, ?_, ?_⟩
  · show (m.buckets.flatten.foldl (bucketInsert (2 * m.capacity))
        (List.replicate (2 * m.capacity).toNat [])).length = _
    rw [length_scatter, List.length_replicate, hcap2]
  · intro i e he
    rw [resize_buckets_getD m c hcap i, List.mem_reverse,
      List.mem_filter] at he
    obtain ⟨hin, hcond⟩ := he
    obtain ⟨i0, hi0⟩ := (mem_flatten_getD m.buckets e).mp hin
    refine ⟨(hent i0 e hi0).1, ?_⟩
    rw [hcap2]
    exact Nat.beq_eq ▸ (by simpa using hcond)
  · intro i
    rw [resize_buckets_getD m c hcap i, List.pairwise_reverse]
    exact (hflatpw.imp (fun {a b} hab => by
      rw [heq.symm] at hab
      exact hab)).filter _
  · show m.size = _
    have hfl : (Hashmap_resize m).buckets.flatten.length =
        m.buckets.flatten.length := by
      rw [List.length_flatten]
      show ((m.buckets.flatten.foldl (bucketInsert (2 * m.capacity))
        (List.replicate (2 * m.capacity).toNat [])).map List.length).sum = _
      rw [sum_length_scatter]
      · rw [sum_length_replicate_nil]
        omega
      · intro e _
        rw [List.length_replicate]
        have h2 : 2 * m.capacity = (2:ℤ)^(c+1) := by rw [hcap]; ring
        rw [h2, toNat_two_pow]
        exact hidx_lt_pow e.hash (c+1)
    rw [hfl]
    exact hsz

/-- Lookups are unchanged by a resize: every entry is relinked into the
bucket that `get` probes under the doubled capacity, and at most one
entry of that bucket matches the key. -/
theorem Hashmap_get_resize {κ ν : Type} (hash : κ → Int)
    (equals : κ → κ → Bool) (heq : EqOk hash equals) (m : HMap κ ν)
    (hinv : HInv hash equals m) (q : κ) :
    Hashmap_get hash equals (Hashmap_resize m) q =
      Hashmap_get hash equals m q := by
  obtain ⟨⟨⟨c, hcap⟩, hlen⟩, hent, hnd, hsz⟩ := hinv
  have hcap2 : (Hashmap_resize m).capacity = 2 * m.capacity := rfl
  have hmatch_hash : ∀ e : HEntry κ ν, e ∈ m.buckets.flatten →
      equals e.key q = true → e.hash = hash q := by
    intro e he hqe
    obtain ⟨i0, hi0⟩ := (mem_flatten_getD m.buckets e).mp he
    rw [(hent i0 e hi0).1]
    exact heq.hashEq _ _ hqe
  unfold Hashmap_get
  rw [hcap2, resize_buckets_getD m c hcap _]
  rw [chainGet_eq_filter_head, chainGet_eq_filter_head]
  have hL : ((m.buckets.flatten.filter
        (fun e => hidx e.hash (2 * m.capacity) ==
          hidx (hash q) (2 * m.capacity))).reverse).filter
      (fun e => equals e.key q) =
      (m.buckets.getD (hidx (hash q) m.capacity) []).filter
        (fun e => equals e.key q) := by
    rw [List.filter_reverse, List.filter_filter]
    have hcong : ∀ e ∈ m.buckets.flatten,
        (equals e.key q && (hidx e.hash (2 * m.capacity) ==
          hidx (hash q) (2 * m.capacity))) = equals e.key q := by
      intro e he
      cases hqe : equals e.key q with
      | false => rfl
      | true =>
        rw [hmatch_hash e he hqe]
        simp
    rw [List.filter_congr hcong]
    have hsingle : ∀ (j : ℕ) (x : HEntry κ ν), x ∈ m.buckets.getD j [] →
        equals x.key q = true → j = hidx (hash q) m.capacity := by
      intro j x hx hqx
      have hj := (hent j x hx).2
      have hh : x.hash = hash q := by
        rw [(hent j x hx).1]
        exact heq.hashEq _ _ hqx
      rw [← hj, hh]
    rw [filter_flatten_single m.buckets _ _ hsingle]
    apply reverse_of_length_le_one
    apply filter_length_le_one_of_pairwise
    exact (hnd (hidx (hash q) m.capacity)).imp (fun {a b} hab hcontra => by
      have h1 : equals a.key q = true := hcontra.1
      have h2 : equals q b.key = true := by rw [← heq.symm]; exact hcontra.2
      have := heq.trans _ _ _ h1 h2
      rw [hab] at this
      cases this)
  rw [hL]

/-- A freshly constructed power-of-two map satisfies the invariant. -/
theorem HInv_new {κ ν : Type} (hash : κ → Int) (equals : κ → κ → Bool)
    (c : ℕ) : HInv hash equals (Hashmap_new κ ν ((2:ℤ)^c)) := by
  refine ⟨⟨⟨c, rfl⟩, by simp [Hashmap_new]⟩, ?_, ?_, ?_⟩
  · intro i e he
    rw [show (Hashmap_new κ ν ((2:ℤ)^c)).buckets =
        List.replicate ((2:ℤ)^c).toNat [] from rfl,
      getD_replicate_nil] at he
    cases he
  · intro i
    rw [show (Hashmap_new κ ν ((2:ℤ)^c)).buckets =
        List.replicate ((2:ℤ)^c).toNat [] from rfl,
      getD_replicate_nil]
    exact List.Pairwise.nil
  · show (0 : ℤ) = _
    rw [List.length_flatten]
    rw [show (Hashmap_new κ ν ((2:ℤ)^c)).buckets =
        List.replicate ((2:ℤ)^c).toNat [] from rfl,
      sum_length_replicate_nil]
    rfl

/-- Lookup in a fresh map misses. -/
theorem Hashmap_get_new {κ ν : Type} (hash : κ → Int)
    (equals : κ → κ → Bool) (cap : Int) (q : κ) :
    Hashmap_get hash equals (Hashmap_new κ ν cap) q = none := by
  unfold Hashmap_get
  rw [show (Hashmap_new κ ν cap).buckets =
      List.replicate cap.toNat [] from rfl, getD_replicate_nil]
  rfl

/-! ### Behavior of put -/

/-- After a `chainPut` for an `equals`-matching probe key, the chain
lookup finds the just-written value (the chain's cached hashes agree with
its keys, so the hash pre-filter never hides the match). -/
theorem chainGet_chainPut_match {κ ν : Type} (hash : κ → Int)
    (equals : κ → κ → Bool) (heq : EqOk hash equals) (k q : κ) (v : ν)
    (hkq : equals k q = true) :
    ∀ l : List (HEntry κ ν), (∀ e ∈ l, e.hash = hash e.key) →
      chainGet equals q (chainPut equals (hash k) k v l).1 = some v := by
  intro l
  induction l with
  | nil =>
    intro _
    show chainGet equals q [⟨k, v, hash k⟩] = some v
    rw [chainGet, if_pos hkq]
  | cons e rest ih =>
    intro hhs
    by_cases hc : (e.hash == hash k && equals e.key k) = true
    · rw [chainPut, if_pos hc]
      have hek : equals e.key k = true := (Bool.and_eq_true _ _ |>.mp hc).2
      have heq2 : equals e.key q = true := heq.trans _ _ _ hek hkq
      show chainGet equals q (⟨e.key, v, e.hash⟩ :: rest) = some v
      rw [chainGet, if_pos heq2]
    · rw [chainPut, if_neg hc]
      have hekq : equals e.key q = false := by
        cases hx : equals e.key q with
        | false => rfl
        | true =>
          exfalso
          have hqk : equals q k = true := by rw [heq.symm]; exact hkq
          have hek : equals e.key k = true := heq.trans _ _ _ hx hqk
          have hh : e.hash = hash k := by
            rw [hhs e (List.mem_cons_self e rest), heq.hashEq _ _ hek]
          apply hc
          rw [hh, hek]
          simp
      show chainGet equals q (e :: _) = some v
      rw [chainGet, if_neg (by rw [hekq]; exact Bool.false_ne_true)]
      exact ih (fun x hx => hhs x (List.mem_cons_of_mem e hx))

/-- A `chainPut` for a key that does not `equals`-match the probe key
leaves the chain lookup unchanged. -/
theorem chainGet_chainPut_other {κ ν : Type} (hash : κ → Int)
    (equals : κ → κ → Bool) (heq : EqOk hash equals) (k q : κ) (v : ν)
    (h : Int) (hkq : equals k q = false) :
    ∀ l : List (HEntry κ ν),
      chainGet equals q (chainPut equals h k v l).1 =
        chainGet equals q l := by
  intro l
  induction l with
  | nil =>
    show chainGet equals q [⟨k, v, h⟩] = chainGet equals q []
    simp [chainGet, hkq]
  | cons e rest ih =>
    by_cases hc : (e.hash == h && equals e.key k) = true
    · rw [chainPut, if_pos hc]
      have hek : equals e.key k = true := (Bool.and_eq_true _ _ |>.mp hc).2
      have hekq : equals e.key q = false := by
        cases hx : equals e.key q with
        | false => rfl
        | true =>
          exfalso
          have hke : equals k e.key = true := by rw [heq.symm]; exact hek
          have : equals k q = true := heq.trans _ _ _ hke hx
          rw [hkq] at this
          cases this
      show chainGet equals q (⟨e.key, v, e.hash⟩ :: rest) = _
      rw [chainGet, if_neg (by rw [hekq]; exact Bool.false_ne_true),
        chainGet, if_neg (by rw [hekq]; exact Bool.false_ne_true)]
    · rw [chainPut, if_neg hc]
      show chainGet equals q (e :: _) = _
      rw [chainGet, chainGet]
      by_cases hek : equals e.key q = true
      · rw [if_pos hek, if_pos hek]
      · rw [if_neg hek, if_neg hek]
        exact ih

/-- The insert phase preserves the representation invariant. -/
theorem HInv_put_entry {κ ν : Type} (hash : κ → Int)
    (equals : κ → κ → Bool) (heq : EqOk hash equals) (m1 : HMap κ ν)
    (hinv : HInv hash equals m1) (k : κ) (v : ν) :
    HInv hash equals (Hashmap_put_entry hash equals m1 k v) := by
  obtain ⟨⟨⟨c, hcap⟩, hlen⟩, hent, hnd, hsz⟩ := hinv
  have hi : hidx (hash k) m1.capacity < m1.buckets.length := by
    rw [hlen, hcap, toNat_two_pow]
    exact hcap ▸ hidx_lt_pow (hash k) c
  have hchk : ∀ e ∈ m1.buckets.getD (hidx (hash k) m1.capacity) [],
      (e.hash == hash k && equals e.key k) = equals e.key k := by
    intro e he
    cases hek : equals e.key k with
    | false => simp
    | true =>
      rw [(hent _ e he).1, heq.hashEq _ _ hek]
      simp
  have hb : (Hashmap_put_entry hash equals m1 k v).buckets =
      m1.buckets.set (hidx (hash k) m1.capacity)
        (chainPut equals (hash k) k v
          (m1.buckets.getD (hidx (hash k) m1.capacity) [])).1 := rfl
  have hc2 : (Hashmap_put_entry hash equals m1 k v).capacity =
      m1.capacity := rfl
  refine ⟨⟨⟨c, hc2 ▸ hcap⟩, ?_⟩, ?_, ?_, ?_⟩
  · rw [hb, hc2, List.length_set, hlen]
  · intro j e he
    rw [hb] at he
    rw [hc2]
    by_cases hji : j = hidx (hash k) m1.capacity
    · subst hji
      rw [getD_set_self _ _ _ _ hi] at he
      rcases chainPut_mem equals (hash k) k v _ e he with
        ⟨e0, he0, hkey, hhash⟩ | rfl
      · have h0 := hent _ e0 he0
        refine ⟨by rw [hhash, hkey]; exact h0.1, by rw [hhash]; exact h0.2⟩
      · exact ⟨rfl, rfl⟩
    · rw [getD_set_ne _ _ _ _ _ (fun hx => hji hx.symm)] at he
      exact hent j e he
  · intro j
    rw [hb]
    by_cases hji : j = hidx (hash k) m1.capacity
    · subst hji
      rw [getD_set_self _ _ _ _ hi]
      cases hgrew : (chainPut equals (hash k) k v
          (m1.buckets.getD (hidx (hash k) m1.capacity) [])).2 with
      | true =>
        have hnf := (chainPut_snd_iff equals (hash k) k v _).mp hgrew
        rw [chainPut_fst_of_not_found equals (hash k) k v _ hnf]
        rw [List.pairwise_append]
        refine ⟨hnd _, List.pairwise_singleton _ _, ?_⟩
        intro e he x hx
        rw [List.mem_singleton] at hx
        subst hx
        have := hnf e he
        rw [hchk e he] at this
        exact this
      | false =>
        have hkeys := chainPut_keys_hashes_of_found equals (hash k) k v _ hgrew
        have hpw := hnd (hidx (hash k) m1.capacity)
        have hpw2 : ((m1.buckets.getD (hidx (hash k) m1.capacity) []).map
            (fun e => (e.key, e.hash))).Pairwise
            (fun a b => equals a.1 b.1 = false) := by
          rw [List.pairwise_map]
          exact hpw
        rw [← hkeys] at hpw2
        rw [List.pairwise_map] at hpw2
        exact hpw2
    · rw [getD_set_ne _ _ _ _ _ (fun hx => hji hx.symm)]
      exact hnd j
  · show m1.size + _ = _
    rw [hb]
    have hsum := sum_length_set m1.buckets (hidx (hash k) m1.capacity)
      (chainPut equals (hash k) k v
        (m1.buckets.getD (hidx (hash k) m1.capacity) [])).1 hi
    have hplen := chainPut_length equals (hash k) k v
      (m1.buckets.getD (hidx (hash k) m1.capacity) [])
    have hsz2 : m1.size = (m1.buckets.flatten.length : Int) := hsz
    rw [List.length_flatten] at hsz2
    rw [List.length_flatten]
    by_cases hgrew : (chainPut equals (hash k) k v
        (m1.buckets.getD (hidx (hash k) m1.capacity) [])).2 = true
    · rw [if_pos hgrew] at hplen ⊢
      omega
    · rw [if_neg hgrew] at hplen ⊢
      omega

/-- Lookup after the insert phase: the probed key sees the new value
exactly when it `equals`-matches the written key; all other lookups are
unchanged. -/
theorem Hashmap_get_put_entry {κ ν : Type} (hash : κ → Int)
    (equals : κ → κ → Bool) (heq : EqOk hash equals) (m1 : HMap κ ν)
    (hinv : HInv hash equals m1) (k : κ) (v : ν) (q : κ) :
    Hashmap_get hash equals (Hashmap_put_entry hash equals m1 k v) q =
      (if equals k q = true then some v
       else Hashmap_get hash equals m1 q) := by
  obtain ⟨⟨⟨c, hcap⟩, hlen⟩, hent, hnd, hsz⟩ := hinv
  have hi : hidx (hash k) m1.capacity < m1.buckets.length := by
    rw [hlen, hcap, toNat_two_pow]
    exact hcap ▸ hidx_lt_pow (hash k) c
  have hb : (Hashmap_put_entry hash equals m1 k v).buckets =
      m1.buckets.set (hidx (hash k) m1.capacity)
        (chainPut equals (hash k) k v
          (m1.buckets.getD (hidx (hash k) m1.capacity) [])).1 := rfl
  have hc2 : (Hashmap_put_entry hash equals m1 k v).capacity =
      m1.capacity := rfl
  unfold Hashmap_get
  rw [hb, hc2]
  by_cases hkq : equals k q = true
  · rw [if_pos hkq]
    have hhq : hash q = hash k := (heq.hashEq _ _ hkq).symm
    rw [hhq, getD_set_self _ _ _ _ hi]
    exact chainGet_chainPut_match hash equals heq k q v hkq _
      (fun e he => (hent _ e he).1)
  · rw [if_neg hkq]
    have hkq2 : equals k q = false := by
      cases hx : equals k q with
      | false => rfl
      | true => exact absurd hx hkq
    by_cases hji : hidx (hash q) m1.capacity = hidx (hash k) m1.capacity
    · rw [hji, getD_set_self _ _ _ _ hi]
      exact chainGet_chainPut_other hash equals heq k q v (hash k) hkq2 _
    · rw [getD_set_ne _ _ _ _ _ (fun hx => hji hx.symm)]

/-- The full `put` preserves the invariant. -/
theorem HInv_put {κ ν : Type} (hash : κ → Int) (equals : κ → κ → Bool)
    (heq : EqOk hash equals) (m : HMap κ ν) (hinv : HInv hash equals m)
    (k : κ) (v : ν) :
    HInv hash equals (Hashmap_put hash equals m k v) := by
  unfold Hashmap_put
  by_cases hload : 3 * m.capacity ≤ 4 * m.size
  · rw [if_pos hload]
    exact HInv_put_entry hash equals heq _
      (HInv_resize hash equals heq m hinv) k v
  · rw [if_neg hload]
    exact HInv_put_entry hash equals heq m hinv k v

/-- Lookup after a full `put`. -/
theorem Hashmap_get_put {κ ν : Type} (hash : κ → Int)
    (equals : κ → κ → Bool) (heq : EqOk hash equals) (m : HMap κ ν)
    (hinv : HInv hash equals m) (k : κ) (v : ν) (q : κ) :
    Hashmap_get hash equals (Hashmap_put hash equals m k v) q =
      (if equals k q = true then some v
       else Hashmap_get hash equals m q) := by
  unfold Hashmap_put
  by_cases hload : 3 * m.capacity ≤ 4 * m.size
  · rw [if_pos hload,
      Hashmap_get_put_entry hash equals heq _
        (HInv_resize hash equals heq m hinv) k v q]
    by_cases hkq : equals k q = true
    · rw [if_pos hkq, if_pos hkq]
    · rw [if_neg hkq, if_neg hkq,
        Hashmap_get_resize hash equals heq m hinv q]
  · rw [if_neg hload]
    exact Hashmap_get_put_entry hash equals heq m hinv k v q

/-- Lemma: `remove` preserves the invariant. -/
theorem HInv_remove {κ ν : Type} (hash : κ → Int) (equals : κ → κ → Bool)
    (m : HMap κ ν) (hinv : HInv hash equals m) (k : κ) :
    HInv hash equals (Hashmap_remove hash equals m k).2 := by
  have hd : Hashmap_remove hash equals m k =
      (match chainRemove equals (hash k) k
          (m.buckets.getD (hidx (hash k) m.capacity) []) with
      | some chain => (true, (⟨m.buckets.set (hidx (hash k) m.capacity) chain,
          m.size - 1, m.capacity⟩ : HMap κ ν))
      | none => (false, m)) := rfl
  rw [hd]
  cases hrem : chainRemove equals (hash k) k
      (m.buckets.getD (hidx (hash k) m.capacity) []) with
  | none => exact hinv
  | some chain =>
    show HInv hash equals
      (⟨m.buckets.set (hidx (hash k) m.capacity) chain,
        m.size - 1, m.capacity⟩ : HMap κ ν)
    obtain ⟨⟨⟨c, hcap⟩, hlen⟩, hent, hnd, hsz⟩ := hinv
    have hi : hidx (hash k) m.capacity < m.buckets.length := by
      rw [hlen, hcap, toNat_two_pow]
      exact hcap ▸ hidx_lt_pow (hash k) c
    have hsub := chainRemove_sublist equals (hash k) k _ chain hrem
    refine ⟨⟨⟨c, hcap⟩, by simpa using hlen⟩, ?_, ?_, ?_⟩
    · intro j e he
      show e.hash = hash e.key ∧ hidx e.hash m.capacity = j
      by_cases hji : j = hidx (hash k) m.capacity
      · subst hji
        rw [show (⟨m.buckets.set (hidx (hash k) m.capacity) chain,
            m.size - 1, m.capacity⟩ : HMap κ ν).buckets =
            m.buckets.set (hidx (hash k) m.capacity) chain from rfl,
          getD_set_self _ _ _ _ hi] at he
        exact hent _ e (hsub.mem he)
      · rw [show (⟨m.buckets.set (hidx (hash k) m.capacity) chain,
            m.size - 1, m.capacity⟩ : HMap κ ν).buckets =
            m.buckets.set (hidx (hash k) m.capacity) chain from rfl,
          getD_set_ne _ _ _ _ _ (fun hx => hji hx.symm)] at he
        exact hent j e he
    · intro j
      show (((m.buckets.set (hidx (hash k) m.capacity) chain)).getD j
          []).Pairwise _
      by_cases hji : j = hidx (hash k) m.capacity
      · subst hji
        rw [getD_set_self _ _ _ _ hi]
        exact (hnd _).sublist hsub
      · rw [getD_set_ne _ _ _ _ _ (fun hx => hji hx.symm)]
        exact hnd j
    · show m.size - 1 =
        (((m.buckets.set (hidx (hash k) m.capacity) chain).flatten.length :
          ℕ) : Int)
      have hsum := sum_length_set m.buckets (hidx (hash k) m.capacity)
        chain hi
      have hclen := chainRemove_length equals (hash k) k _ chain hrem
      have hsz2 : m.size = (m.buckets.flatten.length : Int) := hsz
      rw [List.length_flatten] at hsz2
      rw [List.length_flatten]
      omega

/-- Lemma: `clear` preserves the invariant. -/
theorem HInv_clear {κ ν : Type} (hash : κ → Int) (equals : κ → κ → Bool)
    (m : HMap κ ν) (hinv : HInv hash equals m) :
    HInv hash equals (Hashmap_clear m) := by
  obtain ⟨⟨⟨c, hcap⟩, hlen⟩, _, _, _⟩ := hinv
  refine ⟨⟨⟨c, hcap⟩, by simpa [Hashmap_clear] using hlen⟩, ?_, ?_, ?_⟩
  · intro j e he
    rw [show (Hashmap_clear m).buckets =
        m.buckets.map (fun _ => []) from rfl, getD_map_nil] at he
    cases he
  · intro j
    rw [show (Hashmap_clear m).buckets =
        m.buckets.map (fun _ => []) from rfl, getD_map_nil]
    exact List.Pairwise.nil
  · show (0 : ℤ) = _
    rw [List.length_flatten]
    rw [show (Hashmap_clear m).buckets =
        m.buckets.map (fun _ => []) from rfl]
    have : ∀ bs : List (List (HEntry κ ν)),
        ((bs.map (fun _ => ([] : List (HEntry κ ν)))).map
          List.length).sum = 0 := by
      intro bs
      induction bs with
      | nil => rfl
      | cons b rest ih => simp [ih]
    rw [this m.buckets]
    rfl

/-- Lemma: `clear` misses every key afterwards. -/
theorem Hashmap_get_clear {κ ν : Type} (hash : κ → Int)
    (equals : κ → κ → Bool) (m : HMap κ ν) (q : κ) :
    Hashmap_get hash equals (Hashmap_clear m) q = none := by
  unfold Hashmap_get
  rw [show (Hashmap_clear m).buckets =
      m.buckets.map (fun _ => []) from rfl,
    show (Hashmap_clear m).capacity = m.capacity from rfl, getD_map_nil]
  rfl

/-- Lemma: `HInv` holds along any sequence of puts. -/
theorem HInv_runPuts {κ ν : Type} (hash : κ → Int) (equals : κ → κ → Bool)
    (heq : EqOk hash equals) :
    ∀ (ops : List (κ × ν)) (m : HMap κ ν), HInv hash equals m →
      HInv hash equals (runPuts hash equals m ops) := by
  intro ops
  induction ops with
  | nil => intro m hinv; exact hinv
  | cons p ops ih =>
    intro m hinv
    exact ih _ (HInv_put hash equals heq m hinv p.1 p.2)

/-- Lookup after a sequence of puts is the fold of the per-put updates
over the initial lookup. -/
theorem runPuts_get {κ ν : Type} (hash : κ → Int) (equals : κ → κ → Bool)
    (heq : EqOk hash equals) :
    ∀ (ops : List (κ × ν)) (m : HMap κ ν), HInv hash equals m → ∀ q : κ,
      Hashmap_get hash equals (runPuts hash equals m ops) q =
        ops.foldl (fun acc p => if equals p.1 q = true then some p.2 else acc)
          (Hashmap_get hash equals m q) := by
  intro ops
  induction ops with
  | nil => intro m _ q; rfl
  | cons p ops ih =>
    intro m hinv q
    show Hashmap_get hash equals
        (runPuts hash equals (Hashmap_put hash equals m p.1 p.2) ops) q = _
    rw [ih _ (HInv_put hash equals heq m hinv p.1 p.2) q,
      Hashmap_get_put hash equals heq m hinv p.1 p.2 q]
    rfl

/-- Claim C3: starting from any power-of-two-capacity constructor, after
any sequence of puts (with a hash function consistent with equality),
every key that was put is still retrievable: `get` returns its most
recently put value and `contains` is true — in particular across every
load-factor resize the sequence triggered. -/
theorem claim_C3 {κ ν : Type} (hash : κ → Int) (equals : κ → κ → Bool)
    (heq : EqOk hash equals) (c : ℕ) (ops : List (κ × ν)) (key : κ)
    (v : ν) (hlast : lookupLast equals ops key = some v) :
    Hashmap_get hash equals
      (runPuts hash equals (Hashmap_new κ ν ((2:ℤ)^c)) ops) key = some v ∧
    Hashmap_contains hash equals
      (runPuts hash equals (Hashmap_new κ ν ((2:ℤ)^c)) ops) key = true := by
  have h1 := runPuts_get hash equals heq ops (Hashmap_new κ ν ((2:ℤ)^c))
    (HInv_new hash equals c) key
  rw [Hashmap_get_new] at h1
  have h2 : Hashmap_get hash equals
      (runPuts hash equals (Hashmap_new κ ν ((2:ℤ)^c)) ops) key =
      lookupLast equals ops key := h1
  rw [hlast] at h2
  refine ⟨h2, ?_⟩
  unfold Hashmap_contains
  rw [h2]
  rfl

/-- The identity hash and `==` on `Int` satisfy the hash contract. -/
theorem eqOk_int : EqOk (fun k : Int => k) (fun a b : Int => a == b) := by
  refine ⟨fun a => ?_, fun a b => ?_, fun a b c h1 h2 => ?_,
    fun a b h => ?_⟩
  · simp
  · by_cases h : a = b
    · subst h; rfl
    · rw [beq_eq_false_iff_ne.mpr h, beq_eq_false_iff_ne.mpr (Ne.symm h)]
  · rw [beq_iff_eq] at h1 h2 ⊢
    omega
  · rw [beq_iff_eq] at h
    rw [h]

/-- Claim C3 witness: three puts into a capacity-2 map (the third put
crosses the 0.75 threshold and resizes); the first key is still
retrievable with its value. -/
theorem claim_C3_witness :
    Hashmap_get (fun k : Int => k) (fun a b : Int => a == b)
      (runPuts (fun k : Int => k) (fun a b : Int => a == b)
        (Hashmap_new Int Int ((2:ℤ)^1)) [(0, 10), (1, 11), (2, 12)])
      0 = some 10 ∧
    Hashmap_contains (fun k : Int => k) (fun a b : Int => a == b)
      (runPuts (fun k : Int => k) (fun a b : Int => a == b)
        (Hashmap_new Int Int ((2:ℤ)^1)) [(0, 10), (1, 11), (2, 12)])
      0 = true :=
  claim_C3 (fun k : Int => k) (fun a b : Int => a == b) eqOk_int 1
    [(0, 10), (1, 11), (2, 12)] 0 10 (by decide)

/-- Size and capacity of the insert phase. -/
theorem put_entry_size_cap {κ ν : Type} (hash : κ → Int)
    (equals : κ → κ → Bool) (m1 : HMap κ ν) (k : κ) (v : ν) :
    m1.size ≤ (Hashmap_put_entry hash equals m1 k v).size ∧
    (Hashmap_put_entry hash equals m1 k v).size ≤ m1.size + 1 ∧
    (Hashmap_put_entry hash equals m1 k v).capacity = m1.capacity := by
  have hs : (Hashmap_put_entry hash equals m1 k v).size =
      m1.size + (if (chainPut equals (hash k) k v
        (m1.buckets.getD (hidx (hash k) m1.capacity) [])).2 then 1 else 0) :=
    rfl
  refine ⟨?_, ?_, rfl⟩ <;> rw [hs] <;> split <;> omega

/-- Size and capacity of `remove`. -/
theorem remove_size_cap {κ ν : Type} (hash : κ → Int)
    (equals : κ → κ → Bool) (m : HMap κ ν) (k : κ) :
    (Hashmap_remove hash equals m k).2.size ≤ m.size ∧
    (Hashmap_remove hash equals m k).2.capacity = m.capacity := by
  have hd : Hashmap_remove hash equals m k =
      (match chainRemove equals (hash k) k
          (m.buckets.getD (hidx (hash k) m.capacity) []) with
      | some chain => (true, (⟨m.buckets.set (hidx (hash k) m.capacity) chain,
          m.size - 1, m.capacity⟩ : HMap κ ν))
      | none => (false, m)) := rfl
  rw [hd]
  cases chainRemove equals (hash k) k
      (m.buckets.getD (hidx (hash k) m.capacity) []) with
  | none => exact ⟨le_refl _, rfl⟩
  | some chain => exact ⟨by show m.size - 1 ≤ m.size; omega, rfl⟩

/-- One map operation preserves the load-factor bound, for initial
capacities of at least 4: the proactive doubling in `put` runs before the
insertion, and with `4 ∣ 3·capacity` the strict pre-check leaves room for
exactly one more entry. -/
theorem loadWF_step {κ ν : Type} (hash : κ → Int) (equals : κ → κ → Bool)
    (m : HMap κ ν) (hl : loadWF m) (op : HOp κ ν) :
    loadWF (applyHOp hash equals m op) := by
  obtain ⟨⟨k, hk2, hcap⟩, hload⟩ := hl
  cases op with
  | put key v =>
    show loadWF (Hashmap_put hash equals m key v)
    unfold Hashmap_put
    by_cases hgrow : 3 * m.capacity ≤ 4 * m.size
    · rw [if_pos hgrow]
      have hrs : (Hashmap_resize m).size = m.size := rfl
      have hrc : (Hashmap_resize m).capacity = 2 * m.capacity := rfl
      obtain ⟨h1, h2, h3⟩ := put_entry_size_cap hash equals
        (Hashmap_resize m) key v
      refine ⟨⟨k + 1, by omega, by rw [h3, hrc, hcap]; ring⟩, ?_⟩
      rw [h3, hrc]
      rw [hrs] at h2
      have hcappos : (4:ℤ) ≤ m.capacity := by
        rw [hcap]
        calc (4:ℤ) = 2^2 := by norm_num
          _ ≤ 2^k := by
            apply pow_le_pow_right₀ (by norm_num) hk2
      omega
    · rw [if_neg hgrow]
      obtain ⟨h1, h2, h3⟩ := put_entry_size_cap hash equals m key v
      refine ⟨⟨k, hk2, by rw [h3, hcap]⟩, ?_⟩
      have hdvd : ∃ M : ℤ, m.capacity = 4 * M := by
        refine ⟨(2:ℤ)^(k - 2), ?_⟩
        rw [hcap]
        have : k = 2 + (k - 2) := by omega
        rw [this, pow_add]
        norm_num
      obtain ⟨M, hM⟩ := hdvd
      rw [h3]
      rw [hM] at hgrow ⊢
      omega
  | remove key =>
    show loadWF (Hashmap_remove hash equals m key).2
    obtain ⟨h1, h2⟩ := remove_size_cap hash equals m key
    exact ⟨⟨k, hk2, by rw [h2, hcap]⟩, by rw [h2]; omega⟩
  | clear =>
    show loadWF (Hashmap_clear m)
    refine ⟨⟨k, hk2, hcap⟩, ?_⟩
    show 4 * (0:ℤ) ≤ 3 * m.capacity
    rw [hcap]
    positivity

/-- Claim C5 counterexample: from the power-of-two constructor with
capacity 2 (explicitly covered by the claim), two puts leave
`size = 2 > 0.75 × 2 = capacity × 0.75`, so the claimed invariant fails
for initial capacities 1 and 2. -/
theorem claim_C5_counterexample :
    ¬ (4 * (runHOps (fun key : Int => key) (fun a b : Int => a == b)
        (Hashmap_new Int Int ((2:ℤ)^1)) [.put 1 10, .put 2 20]).size ≤
      3 * (runHOps (fun key : Int => key) (fun a b : Int => a == b)
        (Hashmap_new Int Int ((2:ℤ)^1)) [.put 1 10, .put 2 20]).capacity) := by
  decide

/-- Claim C5 as amended: for every initial power-of-two capacity of at
least 4, the inequality `size ≤ capacity × 0.75` (exactly:
`4·size ≤ 3·capacity`) holds after every put/remove/clear; for initial
capacities 1 and 2 the bound can be exceeded transiently. -/
theorem claim_C5_amended {κ ν : Type} (hash : κ → Int)
    (equals : κ → κ → Bool) (c : ℕ) (hc : 2 ≤ c) (ops : List (HOp κ ν)) :
    4 * (runHOps hash equals (Hashmap_new κ ν ((2:ℤ)^c)) ops).size ≤
      3 * (runHOps hash equals (Hashmap_new κ ν ((2:ℤ)^c)) ops).capacity := by
  have hbase : loadWF (Hashmap_new κ ν ((2:ℤ)^c)) := by
    refine ⟨⟨c, hc, rfl⟩, ?_⟩
    show 4 * (0:ℤ) ≤ 3 * (2:ℤ)^c
    positivity
  have hall : ∀ (ops : List (HOp κ ν)) (m : HMap κ ν), loadWF m →
      loadWF (runHOps hash equals m ops) := by
    intro ops
    induction ops with
    | nil => intro m hm; exact hm
    | cons op ops ih =>
      intro m hm
      exact ih _ (loadWF_step hash equals m hm op)
  exact (hall ops _ hbase).2

/-- Claim C5 amended witness: from capacity 4, three puts (the load check
fires on the third) keep `4·size ≤ 3·capacity`. -/
theorem claim_C5_witness :
    4 * (runHOps (fun key : Int => key) (fun a b : Int => a == b)
        (Hashmap_new Int Int ((2:ℤ)^2))
        [.put 1 10, .put 2 20, .put 3 30]).size ≤
      3 * (runHOps (fun key : Int => key) (fun a b : Int => a == b)
        (Hashmap_new Int Int ((2:ℤ)^2))
        [.put 1 10, .put 2 20, .put 3 30]).capacity :=
  claim_C5_amended (fun key : Int => key) (fun a b : Int => a == b) 2
    (by norm_num) [.put 1 10, .put 2 20, .put 3 30]

/-- A successful chain lookup exhibits a matching entry. -/
theorem chainGet_isSome_mem {κ ν : Type} (equals : κ → κ → Bool) (k : κ) :
    ∀ l : List (HEntry κ ν), (chainGet equals k l).isSome = true →
      ∃ e ∈ l, equals e.key k = true := by
  intro l
  induction l with
  | nil => intro h; cases h
  | cons e rest ih =>
    intro h
    by_cases hek : equals e.key k = true
    · exact ⟨e, List.mem_cons_self e rest, hek⟩
    · rw [chainGet, if_neg hek] at h
      obtain ⟨x, hx, hxk⟩ := ih h
      exact ⟨x, List.mem_cons_of_mem e hx, hxk⟩

/-- Lookup respects key equivalence. -/
theorem Hashmap_get_congr {κ ν : Type} (hash : κ → Int)
    (equals : κ → κ → Bool) (heq : EqOk hash equals) (m : HMap κ ν)
    (q1 q2 : κ) (h12 : equals q1 q2 = true) :
    Hashmap_get hash equals m q1 = Hashmap_get hash equals m q2 := by
  unfold Hashmap_get
  rw [heq.hashEq _ _ h12]
  generalize m.buckets.getD (hidx (hash q2) m.capacity) [] = l
  induction l with
  | nil => rfl
  | cons e rest ih =>
    have hiff : equals e.key q1 = equals e.key q2 := by
      cases hx : equals e.key q1 with
      | true => exact (heq.trans _ _ _ hx h12).symm
      | false =>
        cases hy : equals e.key q2 with
        | false => rfl
        | true =>
          exfalso
          have h21 : equals q2 q1 = true := by rw [heq.symm]; exact h12
          have hc : equals e.key q1 = true := heq.trans _ _ _ hy h21
          rw [hx] at hc
          cases hc
    simp only [chainGet]
    rw [hiff]
    by_cases hy : equals e.key q2 = true
    · rw [if_pos hy, if_pos hy]
    · rw [if_neg hy, if_neg hy]
      exact ih

/-- The insert phase does not change `size` when the key is already
present: the chain walk finds the entry and updates it in place. -/
theorem put_entry_size_of_contains {κ ν : Type} (hash : κ → Int)
    (equals : κ → κ → Bool) (heq : EqOk hash equals) (m1 : HMap κ ν)
    (hinv : HInv hash equals m1) (k : κ) (v : ν)
    (hmem : Hashmap_contains hash equals m1 k = true) :
    (Hashmap_put_entry hash equals m1 k v).size = m1.size := by
  obtain ⟨_, hent, _, _⟩ := hinv
  obtain ⟨e, he, hek⟩ := chainGet_isSome_mem equals k
    (m1.buckets.getD (hidx (hash k) m1.capacity) []) hmem
  have hcheck : (e.hash == hash k && equals e.key k) = true := by
    rw [(hent _ e he).1, heq.hashEq _ _ hek, hek]
    simp
  have hsnd : (chainPut equals (hash k) k v
      (m1.buckets.getD (hidx (hash k) m1.capacity) [])).2 = false := by
    cases hx : (chainPut equals (hash k) k v
        (m1.buckets.getD (hidx (hash k) m1.capacity) [])).2 with
    | false => rfl
    | true =>
      exfalso
      have := (chainPut_snd_iff equals (hash k) k v _).mp hx e he
      rw [hcheck] at this
      cases this
  have hs : (Hashmap_put_entry hash equals m1 k v).size =
      m1.size + (if (chainPut equals (hash k) k v
        (m1.buckets.getD (hidx (hash k) m1.capacity) [])).2 then 1 else 0) :=
    rfl
  rw [hs, if_neg (by rw [hsnd]; exact Bool.false_ne_true)]
  omega

/-- Lemma: `HInv` holds along any operation sequence. -/
theorem HInv_runHOps {κ ν : Type} (hash : κ → Int) (equals : κ → κ → Bool)
    (heq : EqOk hash equals) :
    ∀ (ops : List (HOp κ ν)) (m : HMap κ ν), HInv hash equals m →
      HInv hash equals (runHOps hash equals m ops) := by
  intro ops
  induction ops with
  | nil => intro m hinv; exact hinv
  | cons op ops ih =>
    intro m hinv
    refine ih _ ?_
    cases op with
    | put k v => exact HInv_put hash equals heq m hinv k v
    | remove k => exact HInv_remove hash equals m hinv k
    | clear => exact HInv_clear hash equals m hinv

/-- Claim C9: when the load factor is already at or above the threshold,
a `put` of a key that is already present still doubles the capacity and
rehashes (the growth check runs before the lookup); `size` and the set of
contained keys are unchanged, and the existing entry's value is updated
in place in the resized table. -/
theorem claim_C9 {κ ν : Type} (hash : κ → Int) (equals : κ → κ → Bool)
    (heq : EqOk hash equals) (c : ℕ) (ops : List (HOp κ ν)) (m : HMap κ ν)
    (hm : m = runHOps hash equals (Hashmap_new κ ν ((2:ℤ)^c)) ops)
    (k : κ) (v : ν) (hload : 3 * m.capacity ≤ 4 * m.size)
    (hmem : Hashmap_contains hash equals m k = true) :
    (Hashmap_put hash equals m k v).capacity = 2 * m.capacity ∧
    (Hashmap_put hash equals m k v).size = m.size ∧
    Hashmap_get hash equals (Hashmap_put hash equals m k v) k = some v ∧
    (∀ q : κ, Hashmap_contains hash equals (Hashmap_put hash equals m k v) q
      = Hashmap_contains hash equals m q) := by
  have hinv : HInv hash equals m := by
    rw [hm]
    exact HInv_runHOps hash equals heq ops _ (HInv_new hash equals c)
  have hput : Hashmap_put hash equals m k v =
      Hashmap_put_entry hash equals (Hashmap_resize m) k v := by
    unfold Hashmap_put
    rw [if_pos hload]
  refine ⟨?_, ?_, ?_, ?_⟩
  · rw [hput, (put_entry_size_cap hash equals (Hashmap_resize m) k v).2.2]
    rfl
  · rw [hput]
    have hinv2 := HInv_resize hash equals heq m hinv
    have hmem2 : Hashmap_contains hash equals (Hashmap_resize m) k = true := by
      unfold Hashmap_contains
      rw [Hashmap_get_resize hash equals heq m hinv k]
      exact hmem
    rw [put_entry_size_of_contains hash equals heq _ hinv2 k v hmem2]
    rfl
  · rw [Hashmap_get_put hash equals heq m hinv k v k, if_pos (heq.refl k)]
  · intro q
    unfold Hashmap_contains
    rw [Hashmap_get_put hash equals heq m hinv k v q]
    by_cases hkq : equals k q = true
    · rw [if_pos hkq]
      have hqk : equals q k = true := by rw [heq.symm]; exact hkq
      rw [Hashmap_get_congr hash equals heq m q k hqk]
      unfold Hashmap_contains at hmem
      rw [hmem]
      rfl
    · rw [if_neg hkq]

/-- Claim C9 witness: a capacity-4 map holding keys 1, 2, 3 is at the
threshold; re-putting key 1 doubles the capacity to 8, keeps size 3, and
updates the value. -/
theorem claim_C9_witness :
    (Hashmap_put (fun key : Int => key) (fun a b : Int => a == b)
      (runHOps (fun key : Int => key) (fun a b : Int => a == b)
        (Hashmap_new Int Int ((2:ℤ)^2)) [.put 1 10, .put 2 20, .put 3 30])
      1 99).capacity =
      2 * (runHOps (fun key : Int => key) (fun a b : Int => a == b)
        (Hashmap_new Int Int ((2:ℤ)^2))
        [.put 1 10, .put 2 20, .put 3 30]).capacity ∧
    (Hashmap_put (fun key : Int => key) (fun a b : Int => a == b)
      (runHOps (fun key : Int => key) (fun a b : Int => a == b)
        (Hashmap_new Int Int ((2:ℤ)^2)) [.put 1 10, .put 2 20, .put 3 30])
      1 99).size =
      (runHOps (fun key : Int => key) (fun a b : Int => a == b)
        (Hashmap_new Int Int ((2:ℤ)^2))
        [.put 1 10, .put 2 20, .put 3 30]).size ∧
    Hashmap_get (fun key : Int => key) (fun a b : Int => a == b)
      (Hashmap_put (fun key : Int => key) (fun a b : Int => a == b)
        (runHOps (fun key : Int => key) (fun a b : Int => a == b)
          (Hashmap_new Int Int ((2:ℤ)^2)) [.put 1 10, .put 2 20, .put 3 30])
        1 99) 1 = some 99 := by
  have h := claim_C9 (κ := Int) (ν := Int) (fun key : Int => key)
    (fun a b : Int => a == b)
    eqOk_int 2 [.put 1 10, .put 2 20, .put 3 30] _ rfl 1 99
    (by decide) (by decide)
  exact ⟨h.1, h.2.1, h.2.2.1⟩

/-- The scan loop's behavior: with enough fuel it either reports that all
remaining buckets are empty, or stops at the first non-empty bucket,
returning its chain with the index moved past that bucket. -/
theorem hiterScan_spec {κ ν : Type} (m : HMap κ ν)
    (hlen : m.buckets.length = m.capacity.toNat) :
    ∀ (fuel : Nat) (i : Int) (r : List (HEntry κ ν)), 0 ≤ i →
      m.capacity.toNat ≤ i.toNat + fuel →
      ((hiterScan m fuel i r).1 = false ∧
        (m.buckets.drop i.toNat).flatten = []) ∨
      (∃ (i2 : Int) (chain : List (HEntry κ ν)),
        hiterScan m fuel i r = (true, i2, chain) ∧ chain ≠ [] ∧ 0 ≤ i2 ∧
        (m.buckets.drop i.toNat).flatten =
          chain ++ (m.buckets.drop i2.toNat).flatten) := by
  intro fuel
  induction fuel with
  | zero =>
    intro i r h0 hf
    left
    refine ⟨rfl, ?_⟩
    rw [List.drop_eq_nil_of_le (by omega)]
    rfl
  | succ fuel ih =>
    intro i r h0 hf
    by_cases hic : i < m.capacity
    · have hin : i.toNat < m.buckets.length := by omega
      have hdrop : m.buckets.drop i.toNat =
          m.buckets[i.toNat] :: m.buckets.drop (i.toNat + 1) :=
        List.drop_eq_getElem_cons hin
      have hgd : m.buckets.getD i.toNat [] = m.buckets[i.toNat] :=
        getD_eq_getElem_of_lt _ _ _ hin
      have hi1 : (i + 1).toNat = i.toNat + 1 := by omega
      rw [show hiterScan m (fuel + 1) i r =
          (if i < m.capacity then
            match m.buckets.getD i.toNat [] with
            | [] => hiterScan m fuel (i + 1) []
            | chain => (true, i + 1, chain)
          else (false, i, r)) from rfl, if_pos hic]
      cases hchain : m.buckets.getD i.toNat [] with
      | nil =>
        have hrec := ih (i + 1) [] (by omega) (by omega)
        rw [hi1] at hrec
        have hflat : (m.buckets.drop i.toNat).flatten =
            (m.buckets.drop (i.toNat + 1)).flatten := by
          rw [hdrop, List.flatten_cons, ← hgd, hchain]
          rfl
        rcases hrec with ⟨hfalse, hnil⟩ | ⟨i2, chain, hsc, hne, hi2, hfl⟩
        · left
          exact ⟨hfalse, by rw [hflat]; exact hnil⟩
        · right
          exact ⟨i2, chain, hsc, hne, hi2, by rw [hflat]; exact hfl⟩
      | cons e cs =>
        right
        refine ⟨i + 1, e :: cs, rfl, by simp, by omega, ?_⟩
        rw [hdrop, List.flatten_cons, ← hgd, hchain, hi1]
    · left
      rw [show hiterScan m (fuel + 1) i r =
          (if i < m.capacity then
            match m.buckets.getD i.toNat [] with
            | [] => hiterScan m fuel (i + 1) []
            | chain => (true, i + 1, chain)
          else (false, i, r)) from rfl, if_neg hic]
      refine ⟨rfl, ?_⟩
      rw [List.drop_eq_nil_of_le (by omega)]
      rfl

/-- A full traversal from an iterator state visits the rest of the
current chain, then every entry of every remaining bucket, in order. -/
theorem hiterRun_spec {κ ν : Type} (m : HMap κ ν)
    (hlen : m.buckets.length = m.capacity.toNat) :
    ∀ (fuel : Nat) (i : Int) (r : List (HEntry κ ν)), 0 ≤ i →
      r.tail.length + (m.buckets.drop i.toNat).flatten.length < fuel →
      hiterRun m fuel (i, r) = r.tail ++ (m.buckets.drop i.toNat).flatten := by
  intro fuel
  induction fuel with
  | zero => intro i r h0 hf; omega
  | succ fuel ih =>
    intro i r h0 hf
    match r with
    | e1 :: e2 :: rest =>
      have hnext : Hashmap_iterator_next m (i, e1 :: e2 :: rest) =
          (true, i, e2 :: rest) := rfl
      show (match Hashmap_iterator_next m (i, e1 :: e2 :: rest) with
        | (true, i, e :: rest) => e :: hiterRun m fuel (i, e :: rest)
        | _ => []) = _
      rw [hnext]
      show e2 :: hiterRun m fuel (i, e2 :: rest) =
        (e1 :: e2 :: rest).tail ++ (m.buckets.drop i.toNat).flatten
      have hrec := ih i (e2 :: rest) h0 (by
        simp only [List.tail_cons, List.length_cons] at hf ⊢
        omega)
      rw [hrec]
      rfl
    | [] =>
      have hnext : Hashmap_iterator_next m (i, ([] : List (HEntry κ ν))) =
          hiterScan m (m.capacity - i).toNat i [] := rfl
      show (match Hashmap_iterator_next m (i, ([] : List (HEntry κ ν))) with
        | (true, i, e :: rest) => e :: hiterRun m fuel (i, e :: rest)
        | _ => []) = _
      rw [hnext]
      rcases hiterScan_spec m hlen ((m.capacity - i).toNat) i [] h0
          (by omega) with ⟨hfalse, hnil⟩ | ⟨i2, chain, hsc, hne, hi2, hfl⟩
      · rcases hsc2 : hiterScan m ((m.capacity - i).toNat) i [] with
          ⟨b, i3, r3⟩
        rw [hsc2] at hfalse
        simp only at hfalse
        subst hfalse
        rw [hnil]
        rfl
      · rw [hsc]
        cases chain with
        | nil => exact absurd rfl hne
        | cons e cs =>
          show e :: hiterRun m fuel (i2, e :: cs) = _
          have hrec := ih i2 (e :: cs) hi2 (by
            simp only [List.tail_cons] at hf ⊢
            rw [hfl] at hf
            simp only [List.length_append, List.length_cons] at hf ⊢
            omega)
          rw [hrec, hfl]
          rfl
    | [e1] =>
      have hnext : Hashmap_iterator_next m (i, [e1]) =
          hiterScan m (m.capacity - i).toNat i [e1] := rfl
      show (match Hashmap_iterator_next m (i, [e1]) with
        | (true, i, e :: rest) => e :: hiterRun m fuel (i, e :: rest)
        | _ => []) = _
      rw [hnext]
      rcases hiterScan_spec m hlen ((m.capacity - i).toNat) i [e1] h0
          (by omega) with ⟨hfalse, hnil⟩ | ⟨i2, chain, hsc, hne, hi2, hfl⟩
      · rcases hsc2 : hiterScan m ((m.capacity - i).toNat) i [e1] with
          ⟨b, i3, r3⟩
        rw [hsc2] at hfalse
        simp only at hfalse
        subst hfalse
        rw [hnil]
        rfl
      · rw [hsc]
        cases chain with
        | nil => exact absurd rfl hne
        | cons e cs =>
          show e :: hiterRun m fuel (i2, e :: cs) = _
          have hrec := ih i2 (e :: cs) hi2 (by
            simp only [List.tail_cons] at hf ⊢
            rw [hfl] at hf
            simp only [List.length_append, List.length_cons] at hf ⊢
            omega)
          rw [hrec, hfl]
          rfl

/-- The current element at an in-range cursor index, as a function of
the natural index. -/
theorem current_at_index {α : Type} (v : CVec α) (n : ℕ)
    (hn : n < v.data.length) :
    Vector_iterator_current v ((n : ℕ) : Int) =
      CPtr.valid (v.data.get ⟨n, hn⟩) := by
  unfold Vector_iterator_current bufPtr
  have hcond : (0 ≤ ((n : ℕ) : Int) ∧ ((n : ℕ) : Int) < Vector_size v) := by
    simp only [Vector_size]
    omega
  rw [if_pos (by simp only [Bool.and_eq_true, decide_eq_true_eq]; exact hcond)]
  rw [dif_pos hcond]
  rfl

/-- Claim C6: a freshly constructed iterator, advanced until the advance
fails with no intervening mutation, performs exactly `size` successful
advances and visits exactly the container's elements/entries — in index
order for the array, in bucket-then-chain order for the map (each entry
once, `size` entries in total). -/
theorem claim_C6 :
    (∀ (α : Type) (v : CVec α) (fuel : Nat), v.data.length < fuel →
      (viterRun v fuel (Vector_get_iterator v)).length = v.data.length ∧
      (viterRun v fuel (Vector_get_iterator v)).map
          (Vector_iterator_current v) = v.data.map CPtr.valid) ∧
    (∀ (κ ν : Type) (hash : κ → Int) (equals : κ → κ → Bool),
      EqOk hash equals → ∀ (c : ℕ) (ops : List (HOp κ ν)) (m : HMap κ ν),
      m = runHOps hash equals (Hashmap_new κ ν ((2:ℤ)^c)) ops →
      ∀ fuel : Nat, m.buckets.flatten.length < fuel →
        hiterRun m fuel (Hashmap_get_iterator m) = m.buckets.flatten ∧
        ((hiterRun m fuel (Hashmap_get_iterator m)).length : Int) =
          m.size) := by
  constructor
  · intro α v fuel hfuel
    have hrun := viterRun_from v fuel 0 (by omega) (by omega)
    have hcast : (((0 : ℕ) : Int) - 1) = Vector_get_iterator v := by
      unfold Vector_get_iterator
      norm_num
    rw [hcast, Nat.sub_zero] at hrun
    constructor
    · rw [hrun, List.length_map, List.length_range']
    · rw [hrun, List.map_map]
      apply List.ext_getElem
      · simp
      · intro n h1 h2
        simp only [List.length_map, List.length_range'] at h1
        simp only [List.getElem_map, List.getElem_range', Function.comp]
        have hidx2 : 0 + 1 * n = n := by omega
        rw [hidx2, current_at_index v n (by simpa using h1)]
        simp [List.get_eq_getElem]
  · intro κ ν hash equals heq c ops m hm fuel hfuel
    have hinv : HInv hash equals m := by
      rw [hm]
      exact HInv_runHOps hash equals heq ops _ (HInv_new hash equals c)
    obtain ⟨⟨⟨c2, hcap⟩, hlen⟩, _, _, hsz⟩ := hinv
    have hrun := hiterRun_spec m hlen fuel 0 [] (by omega)
      (by simpa using hfuel)
    have hzero : ((0 : Int)).toNat = 0 := rfl
    rw [hzero, List.drop_zero] at hrun
    have hrun2 : hiterRun m fuel (Hashmap_get_iterator m) =
        m.buckets.flatten := by
      unfold Hashmap_get_iterator
      rw [hrun]
      rfl
    refine ⟨hrun2, ?_⟩
    rw [hrun2]
    exact hsz.symm

/-- Claim C6 witness: a three-element vector is traversed in exactly 3
advances; a capacity-4 map holding two entries is traversed in exactly
`size` advances. -/
theorem claim_C6_witness :
    (viterRun (⟨[5, 6, 7], 10⟩ : CVec Int) 4
      (Vector_get_iterator (⟨[5, 6, 7], 10⟩ : CVec Int))).length = 3 ∧
    ((hiterRun (runHOps (fun key : Int => key) (fun a b : Int => a == b)
        (Hashmap_new Int Int ((2:ℤ)^2)) [.put 1 10, .put 2 20]) 8
      (Hashmap_get_iterator (runHOps (fun key : Int => key)
        (fun a b : Int => a == b) (Hashmap_new Int Int ((2:ℤ)^2))
        [.put 1 10, .put 2 20]))).length : Int) =
      (runHOps (fun key : Int => key) (fun a b : Int => a == b)
        (Hashmap_new Int Int ((2:ℤ)^2)) [.put 1 10, .put 2 20]).size := by
  constructor
  · exact (claim_C6.1 Int (⟨[5, 6, 7], 10⟩ : CVec Int) 4 (by decide)).1
  · exact (claim_C6.2 Int Int (fun key : Int => key)
      (fun a b : Int => a == b) eqOk_int 2 [.put 1 10, .put 2 20] _ rfl 8
      (by decide)).2
